import Mathlib

/-!
Verification of the two hash-map variants of this repository
(`hash_map_oa.py`: open addressing with quadratic probing;
`hash_map_sc.py`: separate chaining) against their specification.

Python integers are modelled as `Int` (with `%` = `Int.emod`, which agrees
with Python `%` for positive divisors, the only case exercised by reachable
states).  Python loops are modelled as fuelled structural recursions whose
fuel is chosen at least as large as any possible number of iterations, so
that fuel exhaustion coincides with genuine divergence of the Python loop;
fallible or possibly diverging operations return `Option`, `none` meaning
the Python code raises or loops forever.

The container module `hash_map_include` (DynamicArray, HashEntry,
LinkedList, the hash functions) is not part of the sources; those leaves
are modelled from the specification's interface section as noted on each
definition.
-/

/-- Inner trial-division loop of `HashMap._is_prime` (`hash_map_oa.py`
lines 60-64, identical in `hash_map_sc.py`): `factor` starts at 3 and
increases by 2 while `factor ** 2 <= capacity`; here `factor = 3 + 2*i` and
`fuel` bounds the remaining iterations.  The loop body runs at most
`capacity.toNat` times (once `3 + 2*i` exceeds `capacity` the guard fails),
so with the fuel chosen in `_is_prime` the `0` branch is unreachable. -/
def isPrimeLoop (capacity : Int) : Nat → Nat → Bool
  | _, 0 => true
  | i, fuel + 1 =>
    if (3 + 2 * (i : Int)) ^ 2 ≤ capacity then
      if capacity % (3 + 2 * (i : Int)) = 0 then false
      else isPrimeLoop capacity (i + 1) fuel
    else true

/-- `HashMap._is_prime` (`hash_map_oa.py` lines 49-66): true for 2 and 3,
false for 1 and even numbers, otherwise trial division by odd factors. -/
def _is_prime (capacity : Int) : Bool :=
  if capacity = 2 ∨ capacity = 3 then true
  else if capacity = 1 ∨ capacity % 2 = 0 then false
  else isPrimeLoop capacity 0 (capacity.toNat + 1)

/-- The `while not self._is_prime(capacity): capacity += 2` loop of
`HashMap._next_prime` (`hash_map_oa.py` lines 44-45).  `fuel` bounds the
number of candidates tried; by Bertrand's postulate the fuel chosen in
`_next_prime` always suffices for odd starting points, so the `0` branch is
unreachable there. -/
def nextPrimeLoop : Int → Nat → Int
  | c, 0 => c
  | c, fuel + 1 => if _is_prime c then c else nextPrimeLoop (c + 2) fuel

/-- `HashMap._next_prime` (`hash_map_oa.py` lines 37-47): make the
candidate odd, then step by 2 until `_is_prime` accepts it. -/
def _next_prime (capacity : Int) : Int :=
  nextPrimeLoop (if capacity % 2 = 0 then capacity + 1 else capacity)
    ((if capacity % 2 = 0 then capacity + 1 else capacity).toNat + 2)

/-- Modelled from the spec: `hash_map_include.HashEntry` is not under
`src/`; spec section 3 describes the open-addressing Entry as a
(key, value, tombstone-flag) triple. -/
structure HashEntry (K V : Type) where
  key : K
  value : V
  is_tombstone : Bool
deriving DecidableEq

/-- State of `hash_map_oa.HashMap`.  Modelled from the spec where the
sources are silent: the `DynamicArray` collaborator (append, indexed
read/write, `length`, insertion order preserved; spec section 6) is a Lean
`List`, and the hash function is an opaque `K → Nat` (spec section 6: key
to non-negative integer).  `_capacity` and `_size` are Python ints. -/
structure HashMapOA (K V : Type) where
  _buckets : List (Option (HashEntry K V))
  _capacity : Int
  _hash_function : K → Nat
  _size : Int

section OpenAddressing

variable {K V : Type} [DecidableEq K]

/-- `HashMap.__init__` (`hash_map_oa.py` lines 13-26): the capacity is
normalized with `_next_prime` and that many `None` slots are appended
(`range` of a nonpositive number is empty, hence `toNat`). -/
def oa_init (K V : Type) (capacity : Int) (f : K → Nat) : HashMapOA K V :=
  { _buckets := List.replicate (_next_prime capacity).toNat none
    _capacity := _next_prime capacity
    _hash_function := f
    _size := 0 }

/-- The quadratic-probing index sequence: iteration `t` of the
`get_bucket_index` loop inspects `(initial + t^2) % capacity`. -/
def oa_probe_seq (cap initial : Int) (t : Nat) : Int :=
  (initial + (t : Int) ^ 2) % cap

/-- The `while self._buckets[index]:` loop of `HashMap.get_bucket_index`
(`hash_map_oa.py` lines 228-236); `j` and `index` are the loop variables.
The inspected index sequence is periodic in the iteration count with
period `capacity`, so `capacity.toNat` iterations decide the loop; fuel
exhaustion returns `none`, modelling divergence of the Python loop, and an
out-of-range read also returns `none`, modelling an IndexError (impossible
once `_buckets` holds `capacity` slots). -/
def oa_probe_loop (m : HashMapOA K V) (key : K) (initial : Int) :
    Nat → Nat → Int → Option Int
  | 0, _, _ => none
  | fuel + 1, j, index =>
    match m._buckets[index.toNat]? with
    | none => none
    | some none => some index
    | some (some e) =>
      if e.key = key then some index
      else oa_probe_loop m key initial fuel (j + 1)
        ((initial + (j : Int) ^ 2) % m._capacity)

/-- `HashMap.get_bucket_index` (`hash_map_oa.py` lines 219-236). -/
def oa_get_bucket_index (m : HashMapOA K V) (key : K) : Option Int :=
  oa_probe_loop m key ((m._hash_function key : Int) % m._capacity)
    m._capacity.toNat 1 ((m._hash_function key : Int) % m._capacity)

/-- `HashMap.table_load` (`hash_map_oa.py` lines 103-107), as an exact
rational (Python uses float division; the two agree on all sizes a real
table reaches). -/
def oa_table_load (m : HashMapOA K V) : ℚ :=
  (m._size : ℚ) / (m._capacity : ℚ)

/-- The test `self.table_load() >= 0.5` of `HashMap.put`, as an exact
integer comparison; `none` models the ZeroDivisionError raised by
`table_load` when the capacity is 0. -/
def oa_load_ge_half (m : HashMapOA K V) : Option Bool :=
  if 0 < m._capacity then some (decide (m._capacity ≤ 2 * m._size))
  else if m._capacity < 0 then some (decide (2 * m._size ≤ m._capacity))
  else none

/-- The body of the `get_keys_and_values` loop: a slot contributes its
key/value pair exactly when it holds a non-tombstoned entry. -/
def oa_entry_kv : Option (HashEntry K V) → Option (K × V)
  | some e => if e.is_tombstone then none else some (e.key, e.value)
  | none => none

/-- `HashMap.get_keys_and_values` (`hash_map_oa.py` lines 206-217).  The
Python loop reads indices `0 .. capacity - 1`; the constructor, `clear`
and `resize_table` keep `_buckets` at exactly `capacity` slots, so
traversing the backing list is the same loop. -/
def oa_get_keys_and_values (m : HashMapOA K V) : List (K × V) :=
  m._buckets.filterMap oa_entry_kv

/-- `HashMap.clear` (`hash_map_oa.py` lines 194-204). -/
def oa_clear (m : HashMapOA K V) : HashMapOA K V :=
  { m with _buckets := List.replicate m._capacity.toNat none, _size := 0 }

/-- The reinsertion loop of `HashMap.resize_table` (lines 141-143): apply
`put1` (the `self.put` of the resized map) to each saved pair in order. -/
def oa_put_list (put1 : HashMapOA K V → K → V → Option (HashMapOA K V))
    (m : HashMapOA K V) (l : List (K × V)) : Option (HashMapOA K V) :=
  l.foldl (fun acc p => acc.bind fun mm => put1 mm p.1 p.2) (some m)

/-- `HashMap.resize_table` (`hash_map_oa.py` lines 120-143) with the
`self.put` used by the reinsertion loop passed as `put1`. -/
def oa_resize_core (put1 : HashMapOA K V → K → V → Option (HashMapOA K V))
    (m : HashMapOA K V) (new_capacity : Int) : Option (HashMapOA K V) :=
  if new_capacity < m._size then some m
  else
    oa_put_list put1
      (oa_clear { m with
        _capacity :=
          if _is_prime new_capacity then new_capacity
          else _next_prime new_capacity })
      (oa_get_keys_and_values m)

/-- The part of `HashMap.put` (`hash_map_oa.py` lines 91-101) after the
load-factor check: resolve the index, then update in place (live entry) or
write a fresh entry and increment the size. -/
def oa_put_body (m : HashMapOA K V) (key : K) (value : V) :
    Option (HashMapOA K V) :=
  match oa_get_bucket_index m key with
  | none => none
  | some index =>
    match m._buckets[index.toNat]? with
    | none => none
    | some (some e) =>
      if e.is_tombstone then
        some { m with
          _buckets := m._buckets.set index.toNat (some ⟨key, value, false⟩)
          _size := m._size + 1 }
      else
        some { m with
          _buckets := m._buckets.set index.toNat (some { e with value := value }) }
    | some none =>
      some { m with
        _buckets := m._buckets.set index.toNat (some ⟨key, value, false⟩)
        _size := m._size + 1 }

/-- `HashMap.put` (`hash_map_oa.py` lines 82-101): on load factor at least
0.5, first `resize_table(capacity * 2)` (whose reinsertion calls `put`
again, with one unit of fuel consumed per nesting level). -/
def oa_put : Nat → HashMapOA K V → K → V → Option (HashMapOA K V)
  | 0, _, _, _ => none
  | fuel + 1, m, key, value =>
    (match oa_load_ge_half m with
      | none => none
      | some true => oa_resize_core (oa_put fuel) m (m._capacity * 2)
      | some false => some m).bind
      fun m1 => oa_put_body m1 key value

/-- `HashMap.resize_table` as called externally, with fuel for the nested
automatic resizes its reinsertion may trigger. -/
def oa_resize_table (fuel : Nat) (m : HashMapOA K V) (new_capacity : Int) :
    Option (HashMapOA K V) :=
  oa_resize_core (oa_put fuel) m new_capacity

/-- `HashMap.get` (`hash_map_oa.py` lines 145-158); `some none` is the
Python `None` result for a missing key, `none` divergence/IndexError. -/
def oa_get (m : HashMapOA K V) (key : K) : Option (Option V) :=
  match oa_get_bucket_index m key with
  | none => none
  | some index =>
    match m._buckets[index.toNat]? with
    | none => none
    | some (some e) => if e.is_tombstone then some none else some (some e.value)
    | some none => some none

/-- `HashMap.contains_key` (`hash_map_oa.py` lines 160-176). -/
def oa_contains_key (m : HashMapOA K V) (key : K) : Option Bool :=
  if m._size = 0 then some false
  else
    match oa_get_bucket_index m key with
    | none => none
    | some index =>
      match m._buckets[index.toNat]? with
      | none => none
      | some (some e) => some (!e.is_tombstone)
      | some none => some false

/-- `HashMap.remove` (`hash_map_oa.py` lines 178-192): a found live entry
has its tombstone flag set and the size is decremented. -/
def oa_remove (m : HashMapOA K V) (key : K) : Option (HashMapOA K V) :=
  match oa_get_bucket_index m key with
  | none => none
  | some index =>
    match m._buckets[index.toNat]? with
    | none => none
    | some (some e) =>
      if e.is_tombstone then some m
      else
        some { m with
          _buckets := m._buckets.set index.toNat (some { e with is_tombstone := true })
          _size := m._size - 1 }
    | some none => some m

/-- The occupancy-and-key skeleton of the table; probing depends on the
buckets only through it. -/
def oa_shape (m : HashMapOA K V) : List (Option K) :=
  m._buckets.map (Option.map HashEntry.key)

/-- A probe halts at `i`: the slot is empty, or it holds the probed key. -/
def oa_probe_stop (m : HashMapOA K V) (key : K) (i : Int) : Prop :=
  m._buckets[i.toNat]? = some none ∨
    ∃ e, m._buckets[i.toNat]? = some (some e) ∧ e.key = key

/-- A probe steps past `i`: the slot is occupied by a different key. -/
def oa_probe_go (m : HashMapOA K V) (key : K) (i : Int) : Prop :=
  ∃ e, m._buckets[i.toNat]? = some (some e) ∧ e.key ≠ key

/-- Every live entry is found at its own slot by `get_bucket_index`
(Boolean so that concrete instances evaluate by `decide`). -/
def oa_findable_b (m : HashMapOA K V) : Bool :=
  (List.range m._buckets.length).all fun i =>
    match m._buckets.getD i none with
    | some e => e.is_tombstone || (oa_get_bucket_index m e.key == some (i : Int))
    | none => true

/-- Invariant of reachable open-addressing states: the backing list holds
exactly `capacity` slots, `_size` counts the live entries, live keys are
pairwise distinct, the capacity is never the non-prime 1 that the sizing
functions never produce, and every live entry is findable by probing. -/
def oa_inv (m : HashMapOA K V) : Prop :=
  m._buckets.length = m._capacity.toNat ∧
  m._size = ((oa_get_keys_and_values m).length : Int) ∧
  ((oa_get_keys_and_values m).map Prod.fst).Nodup ∧
  m._capacity ≠ 1 ∧
  oa_findable_b m = true

instance oa_inv_decidable (m : HashMapOA K V) : Decidable (oa_inv m) := by
  unfold oa_inv
  infer_instance

/-- The association read off the live entries (the abstract content). -/
def oa_lookup (m : HashMapOA K V) (key : K) : Option V :=
  ((oa_get_keys_and_values m).find? fun p => p.1 == key).map Prod.snd

/-- States reachable from a constructed map by the mutating operations
(`get`/`contains_key`/`table_load`/`empty_buckets`/`get_keys_and_values`
do not mutate). -/
inductive oa_reachable : HashMapOA K V → Prop where
  | init (capacity : Int) (f : K → Nat) : oa_reachable (oa_init K V capacity f)
  | put (m m' : HashMapOA K V) (fuel : Nat) (k : K) (v : V) :
      oa_reachable m → oa_put fuel m k v = some m' → oa_reachable m'
  | remove (m m' : HashMapOA K V) (k : K) :
      oa_reachable m → oa_remove m k = some m' → oa_reachable m'
  | clear (m : HashMapOA K V) : oa_reachable m → oa_reachable (oa_clear m)
  | resize (m m' : HashMapOA K V) (fuel : Nat) (nc : Int) :
      oa_reachable m → oa_resize_table fuel m nc = some m' → oa_reachable m'

end OpenAddressing

/-- Modelled from the spec: the chain node of `hash_map_include.LinkedList`
(spec section 3: a (key, value) pair plus a successor reference; the chain
itself is a Lean list). -/
structure SCNode (K V : Type) where
  key : K
  value : V
deriving DecidableEq

/-- State of `hash_map_sc.HashMap`; containers modelled from the spec as
for the open-addressing variant. -/
structure HashMapSC (K V : Type) where
  _buckets : List (List (SCNode K V))
  _capacity : Int
  _hash_function : K → Nat
  _size : Int

section SeparateChaining

variable {K V : Type} [DecidableEq K]

/-- Modelled from the spec: `LinkedList.contains` returns the first node
carrying the key (spec section 6: membership test by key). -/
def ll_contains (chain : List (SCNode K V)) (k : K) : Option (SCNode K V) :=
  chain.find? fun nd => nd.key == k

/-- Modelled from the spec: the `node.value = value` mutation performed by
`put` on the node `contains` returned, i.e. on the first matching node. -/
def ll_update : List (SCNode K V) → K → V → List (SCNode K V)
  | [], _, _ => []
  | nd :: rest, k, v =>
    if nd.key = k then ⟨nd.key, v⟩ :: rest else nd :: ll_update rest k v

/-- Modelled from the spec: `LinkedList.insert` as used by `put`, which
"appends a new node to the chain" (spec section 4.3). -/
def ll_append (chain : List (SCNode K V)) (k : K) (v : V) : List (SCNode K V) :=
  chain ++ [⟨k, v⟩]

/-- Modelled from the spec: `LinkedList.remove` unlinks the first node
with the key and reports whether it removed one (spec sections 4.3, 6). -/
def ll_remove : List (SCNode K V) → K → Bool × List (SCNode K V)
  | [], _ => (false, [])
  | nd :: rest, k =>
    if nd.key = k then (true, rest)
    else ((ll_remove rest k).1, nd :: (ll_remove rest k).2)

/-- `HashMap.__init__` (`hash_map_sc.py` lines 12-25). -/
def sc_init (K V : Type) (capacity : Int) (f : K → Nat) : HashMapSC K V :=
  { _buckets := List.replicate (_next_prime capacity).toNat []
    _capacity := _next_prime capacity
    _hash_function := f
    _size := 0 }

/-- The index computation `self._hash_function(key) % self._capacity`
shared by the chained map's operations. -/
def sc_index (m : HashMapSC K V) (key : K) : Nat :=
  ((m._hash_function key : Int) % m._capacity).toNat

/-- `HashMap.put` (`hash_map_sc.py` lines 81-98); `none` models the
IndexError on an out-of-range bucket read (impossible for real states). -/
def sc_put (m : HashMapSC K V) (key : K) (value : V) : Option (HashMapSC K V) :=
  match m._buckets[sc_index m key]? with
  | none => none
  | some bucket =>
    match ll_contains bucket key with
    | some _ =>
      some { m with
        _buckets := m._buckets.set (sc_index m key) (ll_update bucket key value) }
    | none =>
      some { m with
        _buckets := m._buckets.set (sc_index m key) (ll_append bucket key value)
        _size := m._size + 1 }

/-- `HashMap.get` (`hash_map_sc.py` lines 155-170). -/
def sc_get (m : HashMapSC K V) (key : K) : Option (Option V) :=
  match m._buckets[sc_index m key]? with
  | none => none
  | some bucket => some ((ll_contains bucket key).map SCNode.value)

/-- `HashMap.contains_key` (`hash_map_sc.py` lines 172-182). -/
def sc_contains_key (m : HashMapSC K V) (key : K) : Option Bool :=
  match m._buckets[sc_index m key]? with
  | none => none
  | some bucket => some (ll_contains bucket key).isSome

/-- `HashMap.remove` (`hash_map_sc.py` lines 184-195). -/
def sc_remove (m : HashMapSC K V) (key : K) : Option (HashMapSC K V) :=
  match m._buckets[sc_index m key]? with
  | none => none
  | some bucket =>
    if (ll_remove bucket key).1 then
      some { m with
        _buckets := m._buckets.set (sc_index m key) (ll_remove bucket key).2
        _size := m._size - 1 }
    else some m

/-- `HashMap.clear` (`hash_map_sc.py` lines 118-128). -/
def sc_clear (m : HashMapSC K V) : HashMapSC K V :=
  { m with _buckets := List.replicate m._capacity.toNat [], _size := 0 }

/-- The key/value pairs a chain contributes to `get_keys_and_values`, in
traversal order. -/
def sc_bucket_kvs (chain : List (SCNode K V)) : List (K × V) :=
  chain.map fun nd => (nd.key, nd.value)

/-- `HashMap.get_keys_and_values` (`hash_map_sc.py` lines 197-208): bucket
order outer, chain order inner (the backing list always holds exactly
`capacity` buckets, as for the open-addressing variant). -/
def sc_get_keys_and_values (m : HashMapSC K V) : List (K × V) :=
  (m._buckets.map sc_bucket_kvs).flatten

/-- The reinsertion loop of `HashMap.resize_table` (lines 151-153). -/
def sc_put_list (m : HashMapSC K V) (l : List (K × V)) : Option (HashMapSC K V) :=
  l.foldl (fun acc p => acc.bind fun mm => sc_put mm p.1 p.2) (some m)

/-- `HashMap.resize_table` (`hash_map_sc.py` lines 130-153). -/
def sc_resize_table (m : HashMapSC K V) (new_capacity : Int) :
    Option (HashMapSC K V) :=
  if new_capacity < 1 then some m
  else
    sc_put_list
      (sc_clear { m with
        _capacity :=
          if _is_prime new_capacity then new_capacity
          else _next_prime new_capacity })
      (sc_get_keys_and_values m)

/-- Every node sits in the bucket its key hashes to (Boolean so concrete
instances evaluate by `decide`). -/
def sc_bucketok_b (m : HashMapSC K V) : Bool :=
  (List.range m._buckets.length).all fun i =>
    (m._buckets.getD i []).all fun nd => sc_index m nd.key == i

/-- Invariant of reachable chained states: exactly `capacity` buckets,
`_size` counts the nodes, keys are globally distinct, and every node is in
the bucket its key hashes to. -/
def sc_inv (m : HashMapSC K V) : Prop :=
  m._buckets.length = m._capacity.toNat ∧
  m._size = ((sc_get_keys_and_values m).length : Int) ∧
  ((sc_get_keys_and_values m).map Prod.fst).Nodup ∧
  sc_bucketok_b m = true

instance sc_inv_decidable (m : HashMapSC K V) : Decidable (sc_inv m) := by
  unfold sc_inv
  infer_instance

/-- The association read off the chained map's nodes. -/
def sc_lookup (m : HashMapSC K V) (key : K) : Option V :=
  ((sc_get_keys_and_values m).find? fun p => p.1 == key).map Prod.snd

/-- States reachable from a constructed chained map by the mutating
operations. -/
inductive sc_reachable : HashMapSC K V → Prop where
  | init (capacity : Int) (f : K → Nat) : sc_reachable (sc_init K V capacity f)
  | put (m m' : HashMapSC K V) (k : K) (v : V) :
      sc_reachable m → sc_put m k v = some m' → sc_reachable m'
  | remove (m m' : HashMapSC K V) (k : K) :
      sc_reachable m → sc_remove m k = some m' → sc_reachable m'
  | clear (m : HashMapSC K V) : sc_reachable m → sc_reachable (sc_clear m)
  | resize (m m' : HashMapSC K V) (nc : Int) :
      sc_reachable m → sc_resize_table m nc = some m' → sc_reachable m'

end SeparateChaining

/-! Concrete instances used to instantiate the specifications on
executable states (the identity hash stands in for `hash_function_1`). -/

def idhash : Nat → Nat := fun k => k

def c1mo : HashMapOA Nat Nat := oa_init Nat Nat 11 idhash

def c1m1 : HashMapOA Nat Nat := (oa_put 5 c1mo 1 7).getD c1mo

def c1m2 : HashMapOA Nat Nat := (oa_put_list (oa_put 5) c1m1 [(2, 5)]).getD c1mo

def c1ms : HashMapSC Nat Nat := sc_init Nat Nat 11 idhash

def c1n1 : HashMapSC Nat Nat := (sc_put c1ms 1 7).getD c1ms

def c1n2 : HashMapSC Nat Nat := (sc_put_list c1n1 [(2, 5)]).getD c1ms

def c2m : HashMapOA Nat Nat :=
  (oa_put 5 (oa_init Nat Nat 11 idhash) 1 7).getD (oa_init Nat Nat 11 idhash)

def c2mr : HashMapOA Nat Nat := (oa_resize_table 5 c2m 23).getD c2m

def c2s : HashMapSC Nat Nat :=
  (sc_put (sc_init Nat Nat 11 idhash) 1 7).getD (sc_init Nat Nat 11 idhash)

def c2sr : HashMapSC Nat Nat := (sc_resize_table c2s 23).getD c2s

def c4m0 : HashMapOA Nat Nat := oa_init Nat Nat 3 idhash

def c4m1 : HashMapOA Nat Nat := (oa_put 5 c4m0 0 0).getD c4m0

def c4m2 : HashMapOA Nat Nat := (oa_put 5 c4m1 1 1).getD c4m0

def c7m : HashMapOA Nat Nat :=
  (oa_put 5 (oa_init Nat Nat 11 idhash) 1 7).getD (oa_init Nat Nat 11 idhash)

def c7mr : HashMapOA Nat Nat := (oa_remove c7m 1).getD c7m

def c7s : HashMapSC Nat Nat :=
  (sc_put (sc_init Nat Nat 11 idhash) 1 7).getD (sc_init Nat Nat 11 idhash)

def c7sr : HashMapSC Nat Nat := (sc_remove c7s 1).getD c7s

def c8m : HashMapOA Nat Nat :=
  (oa_put 5 (oa_init Nat Nat 11 idhash) 1 7).getD (oa_init Nat Nat 11 idhash)

def c8s : HashMapSC Nat Nat :=
  (sc_put (sc_init Nat Nat 11 idhash) 1 7).getD (sc_init Nat Nat 11 idhash)

def c8sr : HashMapSC Nat Nat := (sc_resize_table c8s 23).getD c8s

def c9m0 : HashMapOA Nat Nat := oa_init Nat Nat 11 idhash

def c9m1 : HashMapOA Nat Nat := (oa_put 5 c9m0 0 0).getD c9m0

def c9m2 : HashMapOA Nat Nat := (oa_put 5 c9m1 1 1).getD c9m0

def c9m3 : HashMapOA Nat Nat := (oa_put 5 c9m2 2 2).getD c9m0

def c9m4 : HashMapOA Nat Nat := (oa_put 5 c9m3 3 3).getD c9m0

def c9mr : HashMapOA Nat Nat := (oa_resize_table 5 c9m4 4).getD c9m0

/-! ### Theorems -/

theorem isPrimeLoop_eq_true_iff (capacity : Int) :
    ∀ fuel i, capacity < (3 + 2 * ((i + fuel : Nat) : Int)) ^ 2 →
      (isPrimeLoop capacity i fuel = true ↔
        ∀ k : Nat, i ≤ k → (3 + 2 * (k : Int)) ^ 2 ≤ capacity →
          ¬ capacity % (3 + 2 * (k : Int)) = 0) := by
  intro fuel
  induction fuel with
  | zero =>
    intro i hbig
    simp only [isPrimeLoop, true_iff]
    intro k hik hk
    exfalso
    have h1 : (3 + 2 * ((i : Nat) : Int)) ^ 2 ≤ (3 + 2 * ((k : Nat) : Int)) ^ 2 := by
      have : ((i : Nat) : Int) ≤ ((k : Nat) : Int) := by exact_mod_cast hik
      nlinarith
    simp only [Nat.add_zero] at hbig
    nlinarith
  | succ fuel ih =>
    intro i hbig
    simp only [isPrimeLoop]
    by_cases hguard : (3 + 2 * (i : Int)) ^ 2 ≤ capacity
    · simp only [hguard, if_true]
      by_cases hdvd : capacity % (3 + 2 * (i : Int)) = 0
      · simp only [hdvd, if_true]
        constructor
        · intro h; exact absurd h (by simp)
        · intro h; exact absurd hdvd (h i le_rfl hguard)
      · simp only [hdvd, if_false]
        have hbig' : capacity < (3 + 2 * ((i + 1 + fuel : Nat) : Int)) ^ 2 := by
          have : (i + 1) + fuel = i + (fuel + 1) := by omega
          rw [this]; exact hbig
        rw [ih (i + 1) hbig']
        constructor
        · intro h k hik hk
          rcases Nat.eq_or_lt_of_le hik with rfl | hlt
          · exact hdvd
          · exact h k hlt hk
        · intro h k hik hk
          exact h k (Nat.le_of_succ_le hik) hk
    · simp only [hguard, if_false, true_iff]
      intro k hik hk
      exfalso
      have : (3 + 2 * ((i : Nat) : Int)) ^ 2 ≤ (3 + 2 * ((k : Nat) : Int)) ^ 2 := by
        have : ((i : Nat) : Int) ≤ ((k : Nat) : Int) := by exact_mod_cast hik
        nlinarith
      omega

/-- For nonnegative arguments the trial-division loop of `_is_prime` (with
its actual fuel) decides the absence of small odd factors. -/
theorem isPrimeLoop_full (capacity : Int) :
    isPrimeLoop capacity 0 (capacity.toNat + 1) = true ↔
      ∀ k : Nat, (3 + 2 * (k : Int)) ^ 2 ≤ capacity →
        ¬ capacity % (3 + 2 * (k : Int)) = 0 := by
  have hbig : capacity < (3 + 2 * ((0 + (capacity.toNat + 1) : Nat) : Int)) ^ 2 := by
    have h1 : capacity ≤ (capacity.toNat : Int) := Int.self_le_toNat capacity
    have h2 : (0 : Int) ≤ (capacity.toNat : Int) := by positivity
    push_cast
    nlinarith
  rw [isPrimeLoop_eq_true_iff capacity (capacity.toNat + 1) 0 hbig]
  constructor
  · intro h k; exact h k (Nat.zero_le k)
  · intro h k _; exact h k

theorem nat_prime_of_no_small_odd_factor (N : Nat) (h5 : 5 ≤ N) (hodd : N % 2 = 1)
    (h : ∀ k : Nat, (3 + 2 * k) ^ 2 ≤ N → ¬ (3 + 2 * k) ∣ N) : N.Prime := by
  by_contra hnp
  have hp : N.minFac.Prime := Nat.minFac_prime (by omega)
  have hpd : N.minFac ∣ N := Nat.minFac_dvd N
  have hsq : N.minFac ^ 2 ≤ N := Nat.minFac_sq_le_self (by omega) hnp
  have hne2 : N.minFac ≠ 2 := by
    intro h2
    obtain ⟨c, hc⟩ := hpd
    rw [h2] at hc
    omega
  have h3 : 3 ≤ N.minFac := by
    have := hp.two_le
    omega
  have hpodd : N.minFac % 2 = 1 := by
    rcases Nat.even_or_odd N.minFac with ⟨c, hc⟩ | ho
    · have := hp.eq_one_or_self_of_dvd 2 ⟨c, by omega⟩
      omega
    · exact Nat.odd_iff.mp ho
  have hk : N.minFac = 3 + 2 * ((N.minFac - 3) / 2) := by omega
  exact h ((N.minFac - 3) / 2) (by rw [← hk]; exact hsq) (by rw [← hk]; exact hpd)

theorem _is_prime_iff_prime (n : Int) (h1 : 1 ≤ n) : _is_prime n = true ↔ Prime n := by
  obtain ⟨N, rfl⟩ : ∃ N : Nat, n = (N : Int) :=
    ⟨n.toNat, (Int.toNat_of_nonneg (by omega)).symm⟩
  have hNp : Prime ((N : Nat) : Int) ↔ N.Prime := by
    rw [Int.prime_iff_natAbs_prime, Int.natAbs_ofNat]
  rcases Nat.lt_or_ge N 5 with hsmall | hbig
  · interval_cases N
    · omega
    · simp [_is_prime, hNp]
    · simpa [_is_prime, hNp] using Nat.prime_two
    · simpa [_is_prime, hNp] using Nat.prime_three
    · have : ¬ Nat.Prime 4 := by decide
      simpa [_is_prime, hNp] using this
  · rcases Nat.even_or_odd N with ⟨c, hc⟩ | hNodd
    · have heven : ((N : Nat) : Int) % 2 = 0 := by omega
      have hne : ¬ (((N : Nat) : Int) = 2 ∨ ((N : Nat) : Int) = 3) := by omega
      have : _is_prime (N : Int) = false := by
        rw [_is_prime, if_neg hne, if_pos (Or.inr heven)]
      rw [this]
      simp only [Bool.false_eq_true, false_iff, hNp]
      intro hp
      have := hp.eq_one_or_self_of_dvd 2 ⟨c, by omega⟩
      omega
    · have hodd : N % 2 = 1 := Nat.odd_iff.mp hNodd
      have hne : ¬ (((N : Nat) : Int) = 2 ∨ ((N : Nat) : Int) = 3) := by omega
      have hne2 : ¬ (((N : Nat) : Int) = 1 ∨ ((N : Nat) : Int) % 2 = 0) := by omega
      rw [_is_prime, if_neg hne, if_neg hne2, isPrimeLoop_full]
      constructor
      · intro h
        rw [hNp]
        refine nat_prime_of_no_small_odd_factor N hbig hodd ?_
        intro k hk hdvd
        refine h k ?_ (Int.emod_eq_zero_of_dvd (by exact_mod_cast hdvd))
        exact_mod_cast hk
      · intro hp k hk hmod
        have hdvdZ : (3 + 2 * (k : Int)) ∣ (N : Int) := Int.dvd_of_emod_eq_zero hmod
        have hdvd : (3 + 2 * k) ∣ N := by exact_mod_cast hdvdZ
        have hNprime : N.Prime := hNp.mp hp
        have := hNprime.eq_one_or_self_of_dvd _ hdvd
        have hkN : (3 + 2 * (k : Int)) < (N : Int) := by nlinarith
        omega

theorem _is_prime_neg_odd (n : Int) (hneg : n < 0) (hodd : n % 2 = 1) :
    _is_prime n = true := by
  have hne : ¬ (n = 2 ∨ n = 3) := by omega
  have hne2 : ¬ (n = 1 ∨ n % 2 = 0) := by omega
  have htoNat : n.toNat = 0 := by omega
  rw [_is_prime, if_neg hne, if_neg hne2, htoNat]
  simp only [isPrimeLoop]
  rw [if_neg (by push_cast; nlinarith)]

theorem nextPrimeLoop_spec : ∀ (fuel : Nat) (c : Int),
    (∃ k : Nat, k < fuel ∧ _is_prime (c + 2 * k) = true) →
    ∃ k : Nat, k < fuel ∧ _is_prime (c + 2 * k) = true ∧
      nextPrimeLoop c fuel = c + 2 * k ∧ ∀ j : Nat, j < k → _is_prime (c + 2 * j) = false := by
  intro fuel
  induction fuel with
  | zero => intro c h; obtain ⟨k, hk, _⟩ := h; omega
  | succ fuel ih =>
    intro c h
    by_cases h0 : _is_prime c = true
    · refine ⟨0, by omega, by simpa using h0, ?_, by omega⟩
      simp [nextPrimeLoop, h0]
    · obtain ⟨k, hk, hkp⟩ := h
      have hk0 : k ≠ 0 := by
        rintro rfl
        exact h0 (by simpa using hkp)
      obtain ⟨k', rfl⟩ : ∃ k', k = k' + 1 := ⟨k - 1, by omega⟩
      obtain ⟨k0, hk0lt, hk0p, hk0eq, hk0min⟩ := ih (c + 2)
        ⟨k', by omega, by convert hkp using 2; push_cast; ring⟩
      refine ⟨k0 + 1, by omega, by convert hk0p using 2; push_cast; ring, ?_, ?_⟩
      · rw [nextPrimeLoop, if_neg h0, hk0eq]; push_cast; ring
      · intro j hj
        rcases Nat.eq_zero_or_pos j with rfl | hjpos
        · simpa using Bool.eq_false_iff.mpr h0
        · obtain ⟨j', rfl⟩ : ∃ j', j = j' + 1 := ⟨j - 1, by omega⟩
          have := hk0min j' (by omega)
          convert this using 2
          push_cast; ring

theorem code_prime_exists_odd (c : Int) (hodd : c % 2 = 1) :
    ∃ k : Nat, k < c.toNat + 2 ∧ _is_prime (c + 2 * k) = true := by
  rcases lt_trichotomy c 3 with hlt | rfl | hgt
  · rcases lt_or_ge c 0 with hneg | hpos
    · exact ⟨0, by omega, by simpa using _is_prime_neg_odd c hneg hodd⟩
    · have : c = 1 := by omega
      subst this
      refine ⟨1, by omega, by decide⟩
  · exact ⟨0, by omega, by decide⟩
  · have h3 : (3 : Int) < c := hgt
    have h5 : (5 : Int) ≤ c := by omega
    set N := c.toNat with hN
    have hcN : c = (N : Int) := by omega
    have hN5 : 5 ≤ N := by omega
    obtain ⟨p, hp, hlt, hle⟩ := Nat.exists_prime_lt_and_le_two_mul N (by omega)
    have hp2 := hp.two_le
    have hpodd : p % 2 = 1 := by
      rcases Nat.even_or_odd p with ⟨d, hd⟩ | ho
      · have := hp.eq_one_or_self_of_dvd 2 ⟨d, by omega⟩
        omega
      · exact Nat.odd_iff.mp ho
    have hNodd : N % 2 = 1 := by omega
    refine ⟨(p - N) / 2, by omega, ?_⟩
    have harg : c + 2 * (((p - N) / 2 : Nat) : Int) = (p : Int) := by
      have : (p - N) / 2 * 2 = p - N := by omega
      push_cast
      omega
    have hp1 : (1 : Int) ≤ (p : Int) := by omega
    rw [harg, _is_prime_iff_prime _ hp1, Int.prime_iff_natAbs_prime, Int.natAbs_ofNat]
    exact hp

theorem code_prime_ne_one (c : Int) (h : _is_prime c = true) : c ≠ 1 := by
  intro hc
  rw [hc] at h
  exact absurd h (by decide)

theorem _next_prime_spec (c : Int) :
    _is_prime (_next_prime c) = true ∧ c ≤ _next_prime c ∧ _next_prime c % 2 = 1 ∧
      (c % 2 = 0 → c + 1 ≤ _next_prime c) := by
  set c1 := if c % 2 = 0 then c + 1 else c with hc1
  have hodd : c1 % 2 = 1 := by rw [hc1]; split <;> omega
  obtain ⟨k, hk, hkp⟩ := code_prime_exists_odd c1 hodd
  obtain ⟨k0, hk0lt, hk0p, hk0eq, _⟩ := nextPrimeLoop_spec (c1.toNat + 2) c1 ⟨k, hk, hkp⟩
  have heq : _next_prime c = c1 + 2 * k0 := by
    rw [_next_prime, ← hc1]
    exact hk0eq
  have hge : c ≤ c1 := by rw [hc1]; split <;> omega
  refine ⟨by rw [heq]; exact hk0p, by omega, by omega, ?_⟩
  intro he
  have : c1 = c + 1 := by rw [hc1, if_pos he]
  omega

theorem _next_prime_of_code_prime (c : Int) (hodd : c % 2 = 1)
    (hc : _is_prime c = true) : _next_prime c = c := by
  obtain ⟨k0, _, _, hk0eq, hk0min⟩ := nextPrimeLoop_spec (c.toNat + 2) c
    ⟨0, by omega, by simpa using hc⟩
  have hk00 : k0 = 0 := by
    by_contra hne
    have := hk0min 0 (by omega)
    simp only [Nat.cast_zero, mul_zero, add_zero] at this
    rw [this] at hc
    exact absurd hc (by simp)
  rw [_next_prime, if_neg (by omega : ¬ c % 2 = 0), hk0eq, hk00]
  push_cast
  ring

theorem _next_prime_prime (c : Int) (h1 : 1 ≤ c) : Prime (_next_prime c) := by
  obtain ⟨hp, hge, _, _⟩ := _next_prime_spec c
  exact (_is_prime_iff_prime _ (by omega)).mp hp

theorem _next_prime_ne_one (c : Int) : _next_prime c ≠ 1 :=
  code_prime_ne_one _ (_next_prime_spec c).1

theorem oa_probe_seq_nonneg (cap initial : Int) (hcap : 0 < cap) (t : Nat) :
    0 ≤ oa_probe_seq cap initial t ∧ oa_probe_seq cap initial t < cap :=
  ⟨Int.emod_nonneg _ (by omega), Int.emod_lt_of_pos _ hcap⟩

theorem oa_probe_stop_not_go {K V : Type} [DecidableEq K] (m : HashMapOA K V)
    (key : K) (i : Int) (hs : oa_probe_stop m key i) : ¬ oa_probe_go m key i := by
  rintro ⟨e, he, hne⟩
  rcases hs with h | ⟨e', he', hk⟩
  · rw [h] at he; cases he
  · rw [he'] at he
    cases he
    exact hne hk

theorem oa_probe_loop_spec {K V : Type} [DecidableEq K] (m : HashMapOA K V)
    (key : K) (initial : Int) :
    ∀ (fuel t : Nat) (i : Int),
      (oa_probe_loop m key initial fuel (t + 1)
          (oa_probe_seq m._capacity initial t) = some i ↔
        ∃ u : Nat, t ≤ u ∧ u < t + fuel ∧
          oa_probe_stop m key (oa_probe_seq m._capacity initial u) ∧
          i = oa_probe_seq m._capacity initial u ∧
          ∀ s : Nat, t ≤ s → s < u →
            oa_probe_go m key (oa_probe_seq m._capacity initial s)) := by
  intro fuel
  induction fuel with
  | zero =>
    intro t i
    simp only [oa_probe_loop]
    constructor
    · intro h; cases h
    · rintro ⟨u, hu1, hu2, _⟩; omega
  | succ fuel ih =>
    intro t i
    rw [oa_probe_loop]
    rcases hread : m._buckets[(oa_probe_seq m._capacity initial t).toNat]? with _ | s
    · simp only [hread]
      constructor
      · intro h; cases h
      · rintro ⟨u, hu1, hu2, hstop, hi, hgo⟩
        rcases Nat.eq_or_lt_of_le hu1 with rfl | hlt
        · rcases hstop with h | ⟨e, he, _⟩
          · rw [hread] at h; cases h
          · rw [hread] at he; cases he
        · obtain ⟨e, he, _⟩ := hgo t le_rfl hlt
          rw [hread] at he; cases he
    · rcases s with _ | e
      · simp only [hread]
        constructor
        · intro h
          cases h
          exact ⟨t, le_rfl, by omega, Or.inl hread, rfl, by omega⟩
        · rintro ⟨u, hu1, hu2, hstop, hi, hgo⟩
          rcases Nat.eq_or_lt_of_le hu1 with rfl | hlt
          · rw [hi]
          · obtain ⟨e, he, _⟩ := hgo t le_rfl hlt
            rw [hread] at he; cases he
      · simp only [hread]
        by_cases hkey : e.key = key
        · simp only [hkey, if_pos rfl, if_true]
          constructor
          · intro h
            cases h
            exact ⟨t, le_rfl, by omega, Or.inr ⟨e, hread, hkey⟩, rfl, by omega⟩
          · rintro ⟨u, hu1, hu2, hstop, hi, hgo⟩
            rcases Nat.eq_or_lt_of_le hu1 with rfl | hlt
            · rw [hi]
            · obtain ⟨e', he', hne⟩ := hgo t le_rfl hlt
              rw [hread] at he'
              cases he'
              exact absurd hkey hne
        · simp only [hkey, if_false]
          have hnext : (initial + ((t + 1 : Nat) : Int) ^ 2) % m._capacity =
              oa_probe_seq m._capacity initial (t + 1) := by
            rw [oa_probe_seq]
          rw [hnext, ih (t + 1) i]
          constructor
          · rintro ⟨u, hu1, hu2, hstop, hi, hgo⟩
            refine ⟨u, by omega, by omega, hstop, hi, ?_⟩
            intro s hs1 hs2
            rcases Nat.eq_or_lt_of_le hs1 with rfl | hlt
            · exact ⟨e, hread, hkey⟩
            · exact hgo s hlt hs2
          · rintro ⟨u, hu1, hu2, hstop, hi, hgo⟩
            rcases Nat.eq_or_lt_of_le hu1 with rfl | hlt
            · exact absurd ⟨e, hread, hkey⟩ (oa_probe_stop_not_go m key _ hstop)
            · exact ⟨u, by omega, by omega, hstop, hi, fun s hs1 hs2 => hgo s (by omega) hs2⟩

theorem oa_probe_seq_zero {K V : Type} (m : HashMapOA K V) (key : K) :
    oa_probe_seq m._capacity ((m._hash_function key : Int) % m._capacity) 0 =
      (m._hash_function key : Int) % m._capacity := by
  rw [oa_probe_seq]
  push_cast
  rw [add_zero, Int.emod_emod_of_dvd _ dvd_rfl]

theorem oa_get_bucket_index_spec {K V : Type} [DecidableEq K] (m : HashMapOA K V)
    (key : K) (i : Int) :
    oa_get_bucket_index m key = some i ↔
      ∃ u : Nat, u < m._capacity.toNat ∧
        oa_probe_stop m key
          (oa_probe_seq m._capacity ((m._hash_function key : Int) % m._capacity) u) ∧
        i = oa_probe_seq m._capacity ((m._hash_function key : Int) % m._capacity) u ∧
        ∀ s : Nat, s < u →
          oa_probe_go m key
            (oa_probe_seq m._capacity ((m._hash_function key : Int) % m._capacity) s) := by
  rcases Nat.eq_zero_or_pos m._capacity.toNat with h0 | hpos
  · rw [oa_get_bucket_index, h0]
    simp only [oa_probe_loop]
    constructor
    · intro h; cases h
    · rintro ⟨u, hu, _⟩; omega
  · obtain ⟨f, hf⟩ : ∃ f, m._capacity.toNat = f + 1 := ⟨m._capacity.toNat - 1, by omega⟩
    have hspec := oa_probe_loop_spec m key
      ((m._hash_function key : Int) % m._capacity) (f + 1) 0 i
    rw [oa_probe_seq_zero m key] at hspec
    rw [oa_get_bucket_index, hf]
    rw [show (0 : Nat) + 1 = 1 from rfl] at hspec
    rw [hspec]
    constructor
    · rintro ⟨u, _, hu2, hstop, hi, hgo⟩
      exact ⟨u, by omega, hstop, hi, fun s hs => hgo s (by omega) hs⟩
    · rintro ⟨u, hu, hstop, hi, hgo⟩
      exact ⟨u, by omega, by omega, hstop, hi, fun s _ hs => hgo s hs⟩

theorem oa_kvs_split {K V : Type} (l : List (Option (HashEntry K V))) (n : Nat)
    (hn : n < l.length) :
    l.filterMap oa_entry_kv =
      (l.take n).filterMap oa_entry_kv ++ (oa_entry_kv l[n]).toList ++
        (l.drop (n + 1)).filterMap oa_entry_kv := by
  conv_lhs => rw [← List.take_append_drop n l]
  rw [List.filterMap_append, List.drop_eq_getElem_cons hn, List.filterMap_cons]
  rcases h : oa_entry_kv l[n] with _ | p <;> simp [h]

theorem oa_kvs_set_split {K V : Type} (l : List (Option (HashEntry K V))) (n : Nat)
    (a : Option (HashEntry K V)) (hn : n < l.length) :
    (l.set n a).filterMap oa_entry_kv =
      (l.take n).filterMap oa_entry_kv ++ (oa_entry_kv a).toList ++
        (l.drop (n + 1)).filterMap oa_entry_kv := by
  rw [List.set_eq_take_cons_drop a hn, List.filterMap_append, List.filterMap_cons]
  rcases h : oa_entry_kv a with _ | p <;> simp [h]

theorem oa_findable_iff {K V : Type} [DecidableEq K] (m : HashMapOA K V) :
    oa_findable_b m = true ↔
      ∀ (n : Nat) (e : HashEntry K V), m._buckets[n]? = some (some e) →
        e.is_tombstone = false → oa_get_bucket_index m e.key = some (n : Int) := by
  rw [oa_findable_b, List.all_eq_true]
  constructor
  · intro h n e hn hts
    have hlt : n < m._buckets.length := by
      by_contra hge
      rw [List.getElem?_eq_none (by omega)] at hn
      cases hn
    have := h n (List.mem_range.mpr hlt)
    rw [List.getD_eq_getElem?_getD, hn] at this
    simp only [Option.getD_some, hts, Bool.false_or] at this
    exact (beq_iff_eq.mp this)
  · intro h n hn
    have hlt : n < m._buckets.length := List.mem_range.mp hn
    rw [List.getD_eq_getElem?_getD, List.getElem?_eq_getElem hlt]
    rcases hslot : m._buckets[n] with _ | e
    · simp
    · simp only [Option.getD_some]
      rcases hts : e.is_tombstone with _ | _
      · have := h n e (by rw [List.getElem?_eq_getElem hlt, hslot]) hts
        simp [this]
      · simp

theorem find?_key_of_mem_nodup {K V : Type} [DecidableEq K] (l : List (K × V))
    (hn : (l.map Prod.fst).Nodup) (k : K) (v : V) (hm : (k, v) ∈ l) :
    l.find? (fun p => p.1 == k) = some (k, v) := by
  induction l with
  | nil => cases hm
  | cons p l ih =>
    rw [List.map_cons, List.nodup_cons] at hn
    by_cases hk : p.1 = k
    · have : p = (k, v) := by
        rcases List.mem_cons.mp hm with h | h
        · exact h.symm
        · exact absurd (hk ▸ List.mem_map_of_mem Prod.fst h) hn.1
      rw [List.find?_cons_of_pos _ (by simp [hk])]
      rw [this]
    · rw [List.find?_cons_of_neg _ (by simp [hk])]
      refine ih hn.2 ?_
      rcases List.mem_cons.mp hm with h | h
      · exact absurd (congrArg Prod.fst h.symm) hk
      · exact h

theorem oa_lookup_eq_find {K V : Type} [DecidableEq K] (m : HashMapOA K V)
    (k : K) (v : V) (hn : ((oa_get_keys_and_values m).map Prod.fst).Nodup)
    (hm : (k, v) ∈ oa_get_keys_and_values m) : oa_lookup m k = some v := by
  rw [oa_lookup, find?_key_of_mem_nodup _ hn k v hm]
  rfl

theorem oa_lookup_none_iff {K V : Type} [DecidableEq K] (m : HashMapOA K V)
    (k : K) : oa_lookup m k = none ↔ ∀ p ∈ oa_get_keys_and_values m, p.1 ≠ k := by
  rw [oa_lookup, Option.map_eq_none', List.find?_eq_none]
  constructor
  · intro h p hp
    have := h p hp
    simpa using this
  · intro h p hp
    simpa using h p hp

theorem oa_lookup_mem {K V : Type} [DecidableEq K] (m : HashMapOA K V)
    (k : K) (v : V) (h : oa_lookup m k = some v) :
    (k, v) ∈ oa_get_keys_and_values m := by
  rw [oa_lookup] at h
  rcases hf : (oa_get_keys_and_values m).find? (fun p => p.1 == k) with _ | p
  · rw [hf] at h; cases h
  · rw [hf] at h
    have hmem := List.mem_of_find?_eq_some hf
    have hkey : p.1 = k := by simpa using List.find?_some hf
    have hval : p.2 = v := by simpa using h
    rw [← hkey, ← hval]
    exact hmem

theorem oa_kvs_mem {K V : Type} (m : HashMapOA K V) (p : K × V) :
    p ∈ oa_get_keys_and_values m ↔
      ∃ n : Nat, ∃ e : HashEntry K V, m._buckets[n]? = some (some e) ∧
        e.is_tombstone = false ∧ e.key = p.1 ∧ e.value = p.2 := by
  rw [oa_get_keys_and_values, List.mem_filterMap]
  constructor
  · rintro ⟨a, ha, hkv⟩
    obtain ⟨n, hn⟩ := List.mem_iff_getElem?.mp ha
    rcases a with _ | e
    · cases hkv
    · rw [oa_entry_kv] at hkv
      rcases hts : e.is_tombstone with _ | _
      · rw [hts, if_neg (by simp)] at hkv
        cases hkv
        exact ⟨n, e, hn, hts, rfl, rfl⟩
      · rw [hts, if_pos rfl] at hkv
        cases hkv
  · rintro ⟨n, e, hn, hts, hk, hv⟩
    refine ⟨some e, List.mem_iff_getElem?.mpr ⟨n, hn⟩, ?_⟩
    rw [oa_entry_kv, hts, if_neg (by simp), hk, hv]

theorem oa_probe_some_transfer {K V : Type} [DecidableEq K]
    (m m' : HashMapOA K V) (k : K) (i : Int)
    (hcap : m'._capacity = m._capacity)
    (hh : m'._hash_function = m._hash_function)
    (hgo : ∀ j : Int, oa_probe_go m k j → oa_probe_go m' k j)
    (hstop : oa_probe_stop m k i → oa_probe_stop m' k i)
    (h : oa_get_bucket_index m k = some i) :
    oa_get_bucket_index m' k = some i := by
  obtain ⟨u, hu, hst, hi, hgos⟩ := (oa_get_bucket_index_spec m k i).mp h
  refine (oa_get_bucket_index_spec m' k i).mpr ⟨u, ?_, ?_, ?_, ?_⟩
  · rw [hcap]; exact hu
  · rw [hcap, hh, ← hi]
    exact hstop (by rw [hi]; exact hst)
  · rw [hcap, hh, ← hi]
  · intro s hs
    rw [hcap, hh]
    exact hgo _ (hgos s hs)

theorem oa_probe_dead_none {K V : Type} [DecidableEq K] (m : HashMapOA K V)
    (key : K) (index : Int) (hfind : oa_findable_b m = true)
    (hprobe : oa_get_bucket_index m key = some index)
    (hdead : ∀ e : HashEntry K V,
      m._buckets[index.toNat]? = some (some e) → e.is_tombstone = true) :
    ∀ p ∈ oa_get_keys_and_values m, p.1 ≠ key := by
  rintro ⟨pk, pv⟩ hp heq
  simp only at heq
  subst heq
  obtain ⟨n', e', hn', hts', hk', hv'⟩ := (oa_kvs_mem m _).mp hp
  simp only at hk'
  have hf := (oa_findable_iff m).mp hfind n' e' hn' hts'
  rw [hk'] at hf
  have hidx : index = (n' : Int) := by
    have := hprobe.symm.trans hf
    injection this
  rw [hidx] at hdead
  have := hdead e' (by simpa using hn')
  rw [this] at hts'
  cases hts'


theorem oa_probe_stop_of_read_eq {K V : Type} [DecidableEq K]
    (m m' : HashMapOA K V) (k : K) (i : Int)
    (h : m'._buckets[i.toNat]? = m._buckets[i.toNat]?) :
    oa_probe_stop m k i → oa_probe_stop m' k i := by
  rw [oa_probe_stop, oa_probe_stop, h]
  exact id

theorem oa_probe_go_of_read_eq {K V : Type} [DecidableEq K]
    (m m' : HashMapOA K V) (k : K) (i : Int)
    (h : m'._buckets[i.toNat]? = m._buckets[i.toNat]?) :
    oa_probe_go m k i → oa_probe_go m' k i := by
  rw [oa_probe_go, oa_probe_go, h]
  exact id

theorem oa_put_body_insert_aux {K V : Type} [DecidableEq K] (m : HashMapOA K V)
    (key : K) (value : V) (index : Int)
    (hlen : m._buckets.length = m._capacity.toNat)
    (hsize : m._size = ((oa_get_keys_and_values m).length : Int))
    (hnodup : ((oa_get_keys_and_values m).map Prod.fst).Nodup)
    (hcapne : m._capacity ≠ 1)
    (hfind : oa_findable_b m = true)
    (hcap : 0 < m._capacity)
    (hprobe : oa_get_bucket_index m key = some index)
    (hb1 : 0 ≤ index) (hb2 : index < m._capacity)
    (hdead : ∀ e0 : HashEntry K V,
      m._buckets[index.toNat]? = some (some e0) → e0.is_tombstone = true)
    (hkeymatch : ∀ e0 : HashEntry K V,
      m._buckets[index.toNat]? = some (some e0) → e0.key = key)
    (hkvsAB : oa_get_keys_and_values m =
      (m._buckets.take index.toNat).filterMap oa_entry_kv ++
        (m._buckets.drop (index.toNat + 1)).filterMap oa_entry_kv) :
    (oa_get_keys_and_values { m with
        _buckets := m._buckets.set index.toNat (some ⟨key, value, false⟩)
        _size := m._size + 1 } =
      (m._buckets.take index.toNat).filterMap oa_entry_kv ++
        [(key, value)] ++
        (m._buckets.drop (index.toNat + 1)).filterMap oa_entry_kv) ∧
    oa_inv { m with
        _buckets := m._buckets.set index.toNat (some ⟨key, value, false⟩)
        _size := m._size + 1 } ∧
    (∀ k' : K, oa_lookup { m with
        _buckets := m._buckets.set index.toNat (some ⟨key, value, false⟩)
        _size := m._size + 1 } k' =
      if k' = key then some value else oa_lookup m k') ∧
    oa_lookup m key = none := by
  set M' : HashMapOA K V := { m with
      _buckets := m._buckets.set index.toNat (some ⟨key, value, false⟩)
      _size := m._size + 1 } with hM'
  set A : List (K × V) := (m._buckets.take index.toNat).filterMap oa_entry_kv with hA
  set B : List (K × V) :=
    (m._buckets.drop (index.toNat + 1)).filterMap oa_entry_kv with hB
  have hnlt : index.toNat < m._buckets.length := by rw [hlen]; omega
  have hnotlive : ∀ p ∈ oa_get_keys_and_values m, p.1 ≠ key :=
    oa_probe_dead_none m key index hfind hprobe hdead
  have hlookupnone : oa_lookup m key = none := (oa_lookup_none_iff m key).mpr hnotlive
  have hkvs' : oa_get_keys_and_values M' = A ++ [(key, value)] ++ B := by
    rw [hM', oa_get_keys_and_values]
    show (m._buckets.set index.toNat (some ⟨key, value, false⟩)).filterMap oa_entry_kv = _
    rw [oa_kvs_set_split m._buckets index.toNat _ hnlt]
    rfl
  have hAkey : ∀ p ∈ A, p.1 ≠ key := by
    intro p hp
    exact hnotlive p (by rw [hkvsAB]; exact List.mem_append_left B hp)
  have hBkey : ∀ p ∈ B, p.1 ≠ key := by
    intro p hp
    exact hnotlive p (by rw [hkvsAB]; exact List.mem_append_right A hp)
  have hreadM' : M'._buckets[index.toNat]? = some (some ⟨key, value, false⟩) := by
    rw [hM']
    exact List.getElem?_set_self hnlt
  have hreadM'ne : ∀ t : Nat, t ≠ index.toNat → M'._buckets[t]? = m._buckets[t]? := by
    intro t ht
    rw [hM']
    exact List.getElem?_set_ne (fun hh => ht hh.symm)
  have hgokey : ∀ j : Int, oa_probe_go m key j → oa_probe_go M' key j := by
    rintro j ⟨e0, hj, hne⟩
    by_cases hjn : j.toNat = index.toNat
    · rw [hjn] at hj
      exact absurd (hkeymatch e0 hj) hne
    · exact ⟨e0, by rw [hreadM'ne _ hjn]; exact hj, hne⟩
  have hprobeM' : oa_get_bucket_index M' key = some index := by
    refine oa_probe_some_transfer m M' key index rfl rfl hgokey ?_ hprobe
    intro _
    exact Or.inr ⟨⟨key, value, false⟩, hreadM', rfl⟩
  have hfind' : oa_findable_b M' = true := by
    rw [oa_findable_iff]
    intro n0 e0 hn0 hts0
    by_cases hn0i : n0 = index.toNat
    · subst hn0i
      rw [hreadM'] at hn0
      injection hn0 with hn0
      injection hn0 with hn0
      subst hn0
      have : ((index.toNat : Nat) : Int) = index := by omega
      rw [this]
      exact hprobeM'
    · have hn0m : m._buckets[n0]? = some (some e0) := by
        rw [← hreadM'ne _ hn0i]
        exact hn0
      have hpm := (oa_findable_iff m).mp hfind n0 e0 hn0m hts0
      have hkey0 : e0.key ≠ key := by
        refine hnotlive (e0.key, e0.value) ?_
        exact (oa_kvs_mem m _).mpr ⟨n0, e0, hn0m, hts0, rfl, rfl⟩
      refine oa_probe_some_transfer m M' e0.key _ rfl rfl ?_ ?_ hpm
      · rintro j ⟨e1, hj, hne1⟩
        by_cases hjn : j.toNat = index.toNat
        · refine ⟨⟨key, value, false⟩, ?_, fun hh => hkey0 hh.symm⟩
          rw [hjn]
          exact hreadM'
        · exact ⟨e1, by rw [hreadM'ne _ hjn]; exact hj, hne1⟩
      · refine oa_probe_stop_of_read_eq m M' e0.key _ ?_
        refine hreadM'ne _ ?_
        have : ((n0 : Nat) : Int).toNat = n0 := by omega
        rw [this]
        exact hn0i
  have hkeysm : (oa_get_keys_and_values m).map Prod.fst =
      A.map Prod.fst ++ B.map Prod.fst := by
    rw [hkvsAB, List.map_append]
  have hkeys' : (oa_get_keys_and_values M').map Prod.fst =
      A.map Prod.fst ++ key :: B.map Prod.fst := by
    rw [hkvs']
    simp
  have hnodup' : ((oa_get_keys_and_values M').map Prod.fst).Nodup := by
    rw [hkeys', List.nodup_middle, List.nodup_cons]
    constructor
    · intro hmem
      rcases List.mem_append.mp hmem with hmem | hmem
      · obtain ⟨p, hp, hpk⟩ := List.mem_map.mp hmem
        exact hAkey p hp hpk
      · obtain ⟨p, hp, hpk⟩ := List.mem_map.mp hmem
        exact hBkey p hp hpk
    · rw [← List.map_append, ← hkvsAB]
      exact hnodup
  have hlook : ∀ k' : K, oa_lookup M' k' =
      if k' = key then some value else oa_lookup m k' := by
    intro k'
    by_cases hk : k' = key
    · subst hk
      rw [if_pos rfl, oa_lookup, hkvs']
      have hfa : A.find? (fun p => p.1 == k') = none :=
        List.find?_eq_none.mpr (fun p hp => by simpa using hAkey p hp)
      rw [List.append_assoc, List.find?_append, hfa, Option.none_or]
      rw [show ([(k', value)] ++ B) = (k', value) :: B from rfl]
      rw [List.find?_cons_of_pos _ (by simp)]
      rfl
    · rw [if_neg hk, oa_lookup, oa_lookup, hkvs', hkvsAB]
      rw [List.append_assoc, List.find?_append,
        show ([(key, value)] ++ B) = (key, value) :: B from rfl,
        List.find?_cons_of_neg _ (by simp; exact fun hh => hk hh.symm),
        List.find?_append]
  refine ⟨hkvs', ⟨?_, ?_, hnodup', ?_, hfind'⟩, hlook, hlookupnone⟩
  · rw [hM']
    simpa using hlen
  · rw [hkvs']
    rw [hM']
    simp only [List.length_append, List.length_cons, List.length_nil]
    rw [hkvsAB] at hsize
    simp only [List.length_append] at hsize
    push_cast at hsize ⊢
    omega
  · rw [hM']
    exact hcapne

theorem oa_put_body_update_aux {K V : Type} [DecidableEq K] (m : HashMapOA K V)
    (key : K) (value : V) (index : Int) (e : HashEntry K V)
    (hlen : m._buckets.length = m._capacity.toNat)
    (hsize : m._size = ((oa_get_keys_and_values m).length : Int))
    (hnodup : ((oa_get_keys_and_values m).map Prod.fst).Nodup)
    (hcapne : m._capacity ≠ 1)
    (hfind : oa_findable_b m = true)
    (hcap : 0 < m._capacity)
    (hb1 : 0 ≤ index) (hb2 : index < m._capacity)
    (hread : m._buckets[index.toNat]? = some (some e))
    (hts : e.is_tombstone = false)
    (hekey : e.key = key)
    (hkvsAB : oa_get_keys_and_values m =
      (m._buckets.take index.toNat).filterMap oa_entry_kv ++
        [(key, e.value)] ++
        (m._buckets.drop (index.toNat + 1)).filterMap oa_entry_kv) :
    oa_inv { m with
        _buckets := m._buckets.set index.toNat (some { e with value := value }) } ∧
    (∀ k' : K, oa_lookup { m with
        _buckets := m._buckets.set index.toNat (some { e with value := value }) } k' =
      if k' = key then some value else oa_lookup m k') ∧
    oa_lookup m key = some e.value := by
  set M' : HashMapOA K V := { m with
      _buckets := m._buckets.set index.toNat (some { e with value := value }) } with hM'
  set A : List (K × V) := (m._buckets.take index.toNat).filterMap oa_entry_kv with hA
  set B : List (K × V) :=
    (m._buckets.drop (index.toNat + 1)).filterMap oa_entry_kv with hB
  have hnlt : index.toNat < m._buckets.length := by rw [hlen]; omega
  have hkvs' : oa_get_keys_and_values M' = A ++ [(key, value)] ++ B := by
    rw [hM', oa_get_keys_and_values]
    show (m._buckets.set index.toNat (some { e with value := value })).filterMap
        oa_entry_kv = _
    rw [oa_kvs_set_split m._buckets index.toNat _ hnlt]
    rw [show oa_entry_kv (some { e with value := value }) = some (key, value) by
      rw [oa_entry_kv]
      simp only [hts, hekey]
      rw [if_neg (by simp)]]
    rfl
  have hkeysAB : (oa_get_keys_and_values m).map Prod.fst =
      A.map Prod.fst ++ key :: B.map Prod.fst := by
    rw [hkvsAB]
    simp
  have hnotin : key ∉ A.map Prod.fst ++ B.map Prod.fst ∧
      (A.map Prod.fst ++ B.map Prod.fst).Nodup := by
    have := hnodup
    rw [hkeysAB, List.nodup_middle, List.nodup_cons] at this
    exact this
  have hAkey : ∀ p ∈ A, p.1 ≠ key := by
    intro p hp hpk
    exact hnotin.1 (List.mem_append_left _ (hpk ▸ List.mem_map_of_mem Prod.fst hp))
  have hBkey : ∀ p ∈ B, p.1 ≠ key := by
    intro p hp hpk
    exact hnotin.1 (List.mem_append_right _ (hpk ▸ List.mem_map_of_mem Prod.fst hp))
  have hlookupsome : oa_lookup m key = some e.value := by
    refine oa_lookup_eq_find m key e.value hnodup ?_
    rw [hkvsAB]
    exact List.mem_append_left B
      (List.mem_append_right A (List.mem_singleton.mpr rfl))
  have hreadM' : M'._buckets[index.toNat]? = some (some { e with value := value }) := by
    rw [hM']
    exact List.getElem?_set_self hnlt
  have hreadM'ne : ∀ t : Nat, t ≠ index.toNat → M'._buckets[t]? = m._buckets[t]? := by
    intro t ht
    rw [hM']
    exact List.getElem?_set_ne (fun hh => ht hh.symm)
  have htrans : ∀ (k' : K) (i' : Int), oa_get_bucket_index m k' = some i' →
      oa_get_bucket_index M' k' = some i' := by
    intro k' i' hp
    refine oa_probe_some_transfer m M' k' i' rfl rfl ?_ ?_ hp
    · rintro j ⟨e1, hj, hne1⟩
      by_cases hjn : j.toNat = index.toNat
      · rw [hjn, hread] at hj
        injection hj with hj
        injection hj with hj
        refine ⟨{ e with value := value }, ?_, ?_⟩
        · rw [hjn]; exact hreadM'
        · show e.key ≠ k'
          rw [hj]; exact hne1
      · exact ⟨e1, by rw [hreadM'ne _ hjn]; exact hj, hne1⟩
    · intro hs
      by_cases hin : i'.toNat = index.toNat
      · rcases hs with h0 | ⟨e2, h2, hk2⟩
        · rw [hin, hread] at h0; cases h0
        · rw [hin, hread] at h2
          injection h2 with h2
          injection h2 with h2
          refine Or.inr ⟨{ e with value := value }, ?_, ?_⟩
          · rw [hin]; exact hreadM'
          · show e.key = k'
            rw [h2]; exact hk2
      · exact oa_probe_stop_of_read_eq m M' k' i' (hreadM'ne _ hin) hs
  have hfind' : oa_findable_b M' = true := by
    rw [oa_findable_iff]
    intro n0 e0 hn0 hts0
    by_cases hn0i : n0 = index.toNat
    · subst hn0i
      rw [hreadM'] at hn0
      injection hn0 with hn0
      injection hn0 with hn0
      subst hn0
      have hpm := (oa_findable_iff m).mp hfind index.toNat e hread hts
      have : ((index.toNat : Nat) : Int) = index := by omega
      rw [this] at hpm
      have := htrans e.key index hpm
      rw [show ({ e with value := value } : HashEntry K V).key = e.key from rfl]
      rw [show ((index.toNat : Nat) : Int) = index by omega]
      exact this
    · have hn0m : m._buckets[n0]? = some (some e0) := by
        rw [← hreadM'ne _ hn0i]
        exact hn0
      exact htrans e0.key _ ((oa_findable_iff m).mp hfind n0 e0 hn0m hts0)
  have hlook : ∀ k' : K, oa_lookup M' k' =
      if k' = key then some value else oa_lookup m k' := by
    intro k'
    by_cases hk : k' = key
    · subst hk
      rw [if_pos rfl, oa_lookup, hkvs']
      have hfa : A.find? (fun p => p.1 == k') = none :=
        List.find?_eq_none.mpr (fun p hp => by simpa using hAkey p hp)
      rw [List.append_assoc, List.find?_append, hfa, Option.none_or]
      rw [show ([(k', value)] ++ B) = (k', value) :: B from rfl]
      rw [List.find?_cons_of_pos _ (by simp)]
      rfl
    · rw [if_neg hk, oa_lookup, oa_lookup, hkvs', hkvsAB]
      rw [List.append_assoc, List.find?_append,
        show ([(key, value)] ++ B) = (key, value) :: B from rfl,
        List.find?_cons_of_neg _ (by simp; exact fun hh => hk hh.symm)]
      rw [List.append_assoc, List.find?_append,
        show ([(key, e.value)] ++ B) = (key, e.value) :: B from rfl,
        List.find?_cons_of_neg _ (by simp; exact fun hh => hk hh.symm)]
  have hnodup' : ((oa_get_keys_and_values M').map Prod.fst).Nodup := by
    have : (oa_get_keys_and_values M').map Prod.fst =
        (oa_get_keys_and_values m).map Prod.fst := by
      rw [hkvs', hkeysAB]
      simp
    rw [this]
    exact hnodup
  refine ⟨⟨?_, ?_, hnodup', hcapne, hfind'⟩, hlook, hlookupsome⟩
  · rw [hM']
    simpa using hlen
  · rw [hkvs']
    show m._size = _
    rw [hkvsAB] at hsize
    simp only [List.length_append, List.length_cons, List.length_nil] at hsize ⊢
    omega


theorem oa_put_body_spec {K V : Type} [DecidableEq K] (m m' : HashMapOA K V)
    (key : K) (value : V) (hinv : oa_inv m) (h : oa_put_body m key value = some m') :
    oa_inv m' ∧ m'._capacity = m._capacity ∧ m'._hash_function = m._hash_function ∧
      0 < m._capacity ∧
      (∀ k' : K, oa_lookup m' k' = if k' = key then some value else oa_lookup m k') ∧
      (oa_lookup m key = none → m'._size = m._size + 1) ∧
      (oa_lookup m key ≠ none → m'._size = m._size) := by
  obtain ⟨hlen, hsize, hnodup, hcapne, hfind⟩ := hinv
  rw [oa_put_body] at h
  split at h
  · cases h
  rename_i index hprobe
  obtain ⟨u, hu, hstop0, hieq, hgos⟩ := (oa_get_bucket_index_spec m key index).mp hprobe
  have hcap : 0 < m._capacity := by
    rcases Int.lt_or_le 0 m._capacity with h' | h'
    · exact h'
    · have : m._capacity.toNat = 0 := by omega
      omega
  have hstop : oa_probe_stop m key index := by rw [hieq]; exact hstop0
  have hbound : 0 ≤ index ∧ index < m._capacity := by
    rw [hieq]; exact oa_probe_seq_nonneg _ _ hcap u
  have hnlt : index.toNat < m._buckets.length := by
    rw [hlen]; omega
  split at h
  · cases h
  · -- slot holds an entry
    rename_i e hread
    have hgetelem : m._buckets[index.toNat] = some e := by
      have h2 := List.getElem?_eq_getElem hnlt
      rw [hread] at h2
      injection h2.symm
    have hkvsm : oa_get_keys_and_values m =
        (m._buckets.take index.toNat).filterMap oa_entry_kv ++
          (oa_entry_kv (some e)).toList ++
          (m._buckets.drop (index.toNat + 1)).filterMap oa_entry_kv := by
      rw [oa_get_keys_and_values, oa_kvs_split m._buckets index.toNat hnlt, hgetelem]
    have hekey : e.key = key := by
      rcases hstop with h0 | ⟨e2, h2, hk2⟩
      · rw [hread] at h0; cases h0
      · rw [hread] at h2
        injection h2 with h2
        injection h2 with h2
        rw [← h2] at hk2
        exact hk2
    rcases hts : e.is_tombstone with _ | _
    · -- live entry for the key: in-place value update
      rw [hts] at h
      rw [if_neg (by simp)] at h
      have hm' : { m with
          _buckets := m._buckets.set index.toNat
            (some ⟨e.key, value, false⟩) } = m' := by
        injection h
      obtain ⟨hinv', hlook, hsome⟩ :=
        oa_put_body_update_aux m key value index e hlen hsize hnodup hcapne hfind
          hcap hbound.1 hbound.2 hread hts hekey
          (by rw [hkvsm]
              rw [show oa_entry_kv (some e) = some (key, e.value) by
                rw [oa_entry_kv]
                simp [hts, hekey]]
              rfl)
      rw [show (some { e with value := value } : Option (HashEntry K V)) =
        some ⟨e.key, value, false⟩ by rw [show ({ e with value := value } :
          HashEntry K V) = ⟨e.key, value, e.is_tombstone⟩ from rfl, hts]] at hinv' hlook
      subst hm'
      refine ⟨hinv', rfl, rfl, hcap, hlook, fun hn => ?_, fun _ => rfl⟩
      rw [hn] at hsome
      cases hsome
    · -- tombstoned entry for the key: overwritten by a fresh entry
      rw [hts] at h
      have hm' : { m with
          _buckets := m._buckets.set index.toNat (some ⟨key, value, false⟩)
          _size := m._size + 1 } = m' := by
        injection h
      obtain ⟨hkvs', hinv', hlook, hnone⟩ :=
        oa_put_body_insert_aux m key value index hlen hsize hnodup hcapne hfind hcap
          hprobe hbound.1 hbound.2
          (fun e0 h0 => by
            rw [hread] at h0
            injection h0 with h0
            injection h0 with h0
            rw [← h0]
            exact hts)
          (fun e0 h0 => by
            rw [hread] at h0
            injection h0 with h0
            injection h0 with h0
            rw [← h0]
            exact hekey)
          (by rw [hkvsm]
              rw [show oa_entry_kv (some e) = none by
                rw [oa_entry_kv]
                simp [hts]]
              simp)
      subst hm'
      exact ⟨hinv', rfl, rfl, hcap, hlook, fun _ => rfl, fun hne => absurd hnone hne⟩
  · -- empty slot: a fresh entry is inserted
    rename_i hread
    have hgetelem : m._buckets[index.toNat] = none := by
      have h2 := List.getElem?_eq_getElem hnlt
      rw [hread] at h2
      injection h2.symm
    have hkvsm : oa_get_keys_and_values m =
        (m._buckets.take index.toNat).filterMap oa_entry_kv ++
          (m._buckets.drop (index.toNat + 1)).filterMap oa_entry_kv := by
      have := oa_kvs_split m._buckets index.toNat hnlt
      rw [hgetelem] at this
      rw [oa_get_keys_and_values]
      simpa using this
    have hm' : { m with
        _buckets := m._buckets.set index.toNat (some ⟨key, value, false⟩)
        _size := m._size + 1 } = m' := by
      injection h
    obtain ⟨hkvs', hinv', hlook, hnone⟩ :=
      oa_put_body_insert_aux m key value index hlen hsize hnodup hcapne hfind hcap
        hprobe hbound.1 hbound.2
        (fun e0 h0 => by rw [hread] at h0; injection h0 with h0; cases h0)
        (fun e0 h0 => by rw [hread] at h0; injection h0 with h0; cases h0)
        hkvsm
    subst hm'
    exact ⟨hinv', rfl, rfl, hcap, hlook, fun _ => rfl, fun hne => absurd hnone hne⟩

theorem oa_kvs_clear {K V : Type} (m : HashMapOA K V) :
    oa_get_keys_and_values (oa_clear m) = [] := by
  rw [oa_clear, oa_get_keys_and_values]
  show (List.replicate m._capacity.toNat (none : Option (HashEntry K V))).filterMap
      oa_entry_kv = []
  rw [List.filterMap_replicate]
  rfl

theorem oa_findable_replicate {K V : Type} [DecidableEq K] (m : HashMapOA K V)
    (h : m._buckets = List.replicate m._capacity.toNat none) :
    oa_findable_b m = true := by
  rw [oa_findable_b, List.all_eq_true]
  intro i hi
  rw [h] at hi ⊢
  rw [List.getD_eq_getElem?_getD, List.getElem?_replicate,
    if_pos (by simpa using List.mem_range.mp hi)]
  rfl

theorem oa_clear_inv {K V : Type} [DecidableEq K] (m : HashMapOA K V)
    (hcapne : m._capacity ≠ 1) : oa_inv (oa_clear m) := by
  refine ⟨by simp [oa_clear], ?_, ?_, hcapne, ?_⟩
  · rw [oa_kvs_clear]
    rfl
  · rw [oa_kvs_clear]
    exact List.nodup_nil
  · exact oa_findable_replicate _ rfl

theorem oa_lookup_clear {K V : Type} [DecidableEq K] (m : HashMapOA K V) (k : K) :
    oa_lookup (oa_clear m) k = none := by
  rw [oa_lookup, oa_kvs_clear]
  rfl

theorem oa_init_inv {K V : Type} [DecidableEq K] (capacity : Int) (f : K → Nat) :
    oa_inv (oa_init K V capacity f) := by
  refine ⟨by simp [oa_init], ?_, ?_, _next_prime_ne_one capacity, ?_⟩
  · rw [show oa_get_keys_and_values (oa_init K V capacity f) = [] by
      rw [oa_init, oa_get_keys_and_values]
      show (List.replicate (_next_prime capacity).toNat
        (none : Option (HashEntry K V))).filterMap oa_entry_kv = []
      rw [List.filterMap_replicate]
      rfl]
    rfl
  · rw [show oa_get_keys_and_values (oa_init K V capacity f) = [] by
      rw [oa_init, oa_get_keys_and_values]
      show (List.replicate (_next_prime capacity).toNat
        (none : Option (HashEntry K V))).filterMap oa_entry_kv = []
      rw [List.filterMap_replicate]
      rfl]
    exact List.nodup_nil
  · exact oa_findable_replicate _ rfl

theorem oa_put_list_nil {K V : Type}
    (put1 : HashMapOA K V → K → V → Option (HashMapOA K V)) (m : HashMapOA K V) :
    oa_put_list put1 m [] = some m := rfl

theorem oa_put_list_none {K V : Type}
    (put1 : HashMapOA K V → K → V → Option (HashMapOA K V)) (l : List (K × V)) :
    l.foldl (fun acc p => acc.bind fun mm => put1 mm p.1 p.2) none = none := by
  induction l with
  | nil => rfl
  | cons p l ih => exact ih

theorem oa_put_list_cons {K V : Type}
    (put1 : HashMapOA K V → K → V → Option (HashMapOA K V)) (m : HashMapOA K V)
    (p : K × V) (l : List (K × V)) :
    oa_put_list put1 m (p :: l) =
      (put1 m p.1 p.2).bind fun m1 => oa_put_list put1 m1 l := by
  rw [oa_put_list, List.foldl_cons]
  rcases h : put1 m p.1 p.2 with _ | m1
  · show List.foldl _ ((some m).bind fun mm => put1 mm p.1 p.2) l = _
    rw [Option.some_bind, h]
    exact oa_put_list_none put1 l
  · show List.foldl _ ((some m).bind fun mm => put1 mm p.1 p.2) l = _
    rw [Option.some_bind, h]
    rfl

theorem oa_put_succ_load_lt {K V : Type} [DecidableEq K] (fuel : Nat)
    (m : HashMapOA K V) (key : K) (value : V)
    (hload : oa_load_ge_half m = some false) :
    oa_put (fuel + 1) m key value = oa_put_body m key value := by
  rw [oa_put, hload]
  rfl

theorem oa_put_succ_load_ge {K V : Type} [DecidableEq K] (fuel : Nat)
    (m : HashMapOA K V) (key : K) (value : V)
    (hload : oa_load_ge_half m = some true) :
    oa_put (fuel + 1) m key value =
      (oa_resize_core (oa_put fuel) m (m._capacity * 2)).bind
        fun m1 => oa_put_body m1 key value := by
  rw [oa_put, hload]

theorem oa_inv_size_nonneg {K V : Type} [DecidableEq K] (m : HashMapOA K V)
    (hinv : oa_inv m) : 0 ≤ m._size := by
  rw [hinv.2.1]
  positivity

theorem oa_load_lt_check {K V : Type} [DecidableEq K] (m : HashMapOA K V)
    (hsize0 : 0 ≤ m._size) (hlt : 2 * m._size < m._capacity) :
    oa_load_ge_half m = some false := by
  rw [oa_load_ge_half, if_pos (by omega)]
  simp only [Option.some_inj, decide_eq_false_iff_not]
  omega

theorem normalize_ne_one (nc : Int) :
    (if _is_prime nc then nc else _next_prime nc) ≠ 1 := by
  split
  · next h => exact code_prime_ne_one _ h
  · exact _next_prime_ne_one nc

theorem lookup_eq_of_find {K V : Type} [DecidableEq K] (A : List (K × V))
    (k : K) (v : V) (h : (A.find? fun p => p.1 == k).map Prod.snd = some v) :
    A.find? (fun p => p.1 == k) = some (k, v) := by
  rcases hf : A.find? (fun p => p.1 == k) with _ | p
  · rw [hf] at h; cases h
  · rw [hf] at h
    have h1 : p.1 = k := by simpa using List.find?_some hf
    have h2 : p.2 = v := by simpa using h
    rw [hf]
    have : p = (k, v) := by
      obtain ⟨p1, p2⟩ := p
      simp_all
    rw [this]

theorem perm_of_nodup_keys_lookup_eq {K V : Type} [DecidableEq K]
    (A B : List (K × V)) (hA : (A.map Prod.fst).Nodup) (hB : (B.map Prod.fst).Nodup)
    (h : ∀ k : K, (A.find? fun p => p.1 == k).map Prod.snd =
      (B.find? fun p => p.1 == k).map Prod.snd) : A.Perm B := by
  rw [List.perm_ext_iff_of_nodup (hA.of_map Prod.fst) (hB.of_map Prod.fst)]
  rintro ⟨k, v⟩
  constructor
  · intro hm
    have hf := find?_key_of_mem_nodup A hA k v hm
    have := h k
    rw [hf] at this
    exact List.mem_of_find?_eq_some (lookup_eq_of_find B k v this.symm)
  · intro hm
    have hf := find?_key_of_mem_nodup B hB k v hm
    have := h k
    rw [hf] at this
    exact List.mem_of_find?_eq_some (lookup_eq_of_find A k v this)

theorem oa_put_list_strict {K V : Type} [DecidableEq K] (g : Nat) :
    ∀ (L : List (K × V)) (m0 mr : HashMapOA K V),
      oa_inv m0 → (L.map Prod.fst).Nodup →
      (∀ p ∈ L, oa_lookup m0 p.1 = none) →
      2 * (m0._size + L.length) ≤ m0._capacity + 1 →
      oa_put_list (oa_put g) m0 L = some mr →
      oa_inv mr ∧ mr._capacity = m0._capacity ∧
        mr._hash_function = m0._hash_function ∧
        mr._size = m0._size + L.length ∧
        ∀ k : K, oa_lookup mr k =
          ((L.find? fun p => p.1 == k).map Prod.snd).or (oa_lookup m0 k) := by
  intro L
  induction L with
  | nil =>
    intro m0 mr hinv _ _ _ hput
    rw [oa_put_list_nil] at hput
    injection hput with hput
    subst hput
    exact ⟨hinv, rfl, rfl, by simp, fun k => by simp⟩
  | cons p L ih =>
    intro m0 mr hinv hnodup habsent hbound hput
    rw [oa_put_list_cons] at hput
    rcases hstep : oa_put g m0 p.1 p.2 with _ | m1
    · rw [hstep] at hput; cases hput
    rw [hstep] at hput
    rw [Option.some_bind] at hput
    rcases g with _ | g'
    · cases hstep
    have hload : oa_load_ge_half m0 = some false :=
      oa_load_lt_check m0 (oa_inv_size_nonneg m0 hinv)
        (by simp only [List.length_cons] at hbound; omega)
    rw [oa_put_succ_load_lt g' m0 p.1 p.2 hload] at hstep
    obtain ⟨hinv1, hcap1, hh1, _, hlook1, hsz1, _⟩ :=
      oa_put_body_spec m0 m1 p.1 p.2 hinv hstep
    have habs0 : oa_lookup m0 p.1 = none := habsent p (List.mem_cons_self p L)
    have hsz1' : m1._size = m0._size + 1 := hsz1 habs0
    rw [List.map_cons, List.nodup_cons] at hnodup
    have habsent1 : ∀ q ∈ L, oa_lookup m1 q.1 = none := by
      intro q hq
      rw [hlook1 q.1, if_neg (show ¬ q.1 = p.1 from fun hqe =>
        hnodup.1 (hqe ▸ List.mem_map_of_mem Prod.fst hq))]
      exact habsent q (List.mem_cons_of_mem p hq)
    obtain ⟨hinvr, hcapr, hhr, hszr, hlookr⟩ := ih m1 mr hinv1 hnodup.2 habsent1
      (by rw [hcap1, hsz1']
          simp only [List.length_cons] at hbound
          omega) hput
    refine ⟨hinvr, by rw [hcapr, hcap1], by rw [hhr, hh1], ?_, ?_⟩
    · rw [hszr, hsz1']
      simp only [List.length_cons]
      push_cast
      ring
    · intro k
      rw [hlookr k, hlook1 k]
      by_cases hk : k = p.1
      · have hfnone : L.find? (fun q => q.1 == k) = none := by
          refine List.find?_eq_none.mpr ?_
          intro q hq
          simp only [beq_iff_eq]
          intro hqe
          exact hnodup.1 ((hqe.trans hk) ▸ List.mem_map_of_mem Prod.fst hq)
        rw [if_pos hk, hfnone, List.find?_cons_of_pos _ (by simp [hk])]
        simp
      · rw [if_neg hk]
        rw [List.find?_cons_of_neg _ (by simpa using fun hh => hk hh.symm)]

theorem oa_resize_strict {K V : Type} [DecidableEq K] (g : Nat)
    (m mr : HashMapOA K V) (nc : Int) (hinv : oa_inv m)
    (hge : ¬ nc < m._size)
    (hbig : 2 * m._size < (if _is_prime nc then nc else _next_prime nc))
    (h : oa_resize_core (oa_put g) m nc = some mr) :
    oa_inv mr ∧
      mr._capacity = (if _is_prime nc then nc else _next_prime nc) ∧
      mr._hash_function = m._hash_function ∧ mr._size = m._size ∧
      2 * mr._size < mr._capacity ∧
      (∀ k : K, oa_lookup mr k = oa_lookup m k) ∧
      (oa_get_keys_and_values mr).Perm (oa_get_keys_and_values m) := by
  rw [oa_resize_core, if_neg hge] at h
  set nc' : Int := if _is_prime nc then nc else _next_prime nc with hnc'
  set mmid : HashMapOA K V := { m with _capacity := nc' } with hmmid
  have hinv1 : oa_inv (oa_clear mmid) := oa_clear_inv mmid (normalize_ne_one nc)
  have habs : ∀ p ∈ oa_get_keys_and_values m,
      oa_lookup (oa_clear mmid) p.1 = none := fun p _ => oa_lookup_clear mmid p.1
  have hlenL : m._size = ((oa_get_keys_and_values m).length : Int) := hinv.2.1
  obtain ⟨hinvr, hcapr, hhr, hszr, hlookr⟩ :=
    oa_put_list_strict g (oa_get_keys_and_values m) (oa_clear mmid) mr hinv1
      hinv.2.2.1 habs
      (by show 2 * ((0 : Int) + _) ≤ nc' + 1
          omega) h
  have hcapr' : mr._capacity = nc' := hcapr
  have hszr' : mr._size = m._size := by
    rw [hszr, hlenL]
    show (0 : Int) + _ = _
    ring
  have hlookeq : ∀ k : K, oa_lookup mr k = oa_lookup m k := by
    intro k
    rw [hlookr k, oa_lookup_clear, Option.or_none]
    rfl
  refine ⟨hinvr, hcapr', hhr, hszr', by omega, hlookeq, ?_⟩
  refine perm_of_nodup_keys_lookup_eq _ _ hinvr.2.2.1 hinv.2.2.1 ?_
  intro k
  exact hlookeq k

theorem _is_prime_even_ne_two (n : Int) (he : n % 2 = 0) (hne : n ≠ 2) :
    _is_prime n = false := by
  rw [_is_prime, if_neg (by omega), if_pos (Or.inr he)]

theorem oa_inv_size_le_cap {K V : Type} [DecidableEq K] (m : HashMapOA K V)
    (hinv : oa_inv m) : m._size ≤ m._capacity.toNat := by
  rw [hinv.2.1]
  have h1 : (oa_get_keys_and_values m).length ≤ m._buckets.length :=
    List.length_filterMap_le _ _
  rw [hinv.1] at h1
  omega

theorem oa_put_main {K V : Type} [DecidableEq K] (fuel : Nat)
    (m m' : HashMapOA K V) (key : K) (value : V)
    (hinv : oa_inv m) (h : oa_put fuel m key value = some m') :
    oa_inv m' ∧ m'._hash_function = m._hash_function ∧
      (∀ k' : K, oa_lookup m' k' = if k' = key then some value else oa_lookup m k') ∧
      (oa_lookup m key = none → m'._size = m._size + 1) ∧
      (oa_lookup m key ≠ none → m'._size = m._size) ∧
      2 * m'._size ≤ m'._capacity + 1 ∧
      (m'._size = m._size → 2 * m'._size < m'._capacity) := by
  rcases fuel with _ | f
  · cases h
  rcases hload : oa_load_ge_half m with _ | b
  · rw [oa_put, hload] at h
    cases h
  rcases b with _ | _
  · -- load factor below one half: direct insertion
    rw [oa_put_succ_load_lt f m key value hload] at h
    obtain ⟨hinv', hcap', hh', hcap0, hlook', hsz1, hsz2⟩ :=
      oa_put_body_spec m m' key value hinv h
    have hlt : 2 * m._size < m._capacity := by
      rw [oa_load_ge_half, if_pos hcap0] at hload
      simp only [Option.some_inj, decide_eq_false_iff_not] at hload
      omega
    refine ⟨hinv', hh', hlook', hsz1, hsz2, ?_, ?_⟩
    · rcases hcase : oa_lookup m key with _ | w
      · have := hsz1 hcase
        omega
      · have := hsz2 (by rw [hcase]; simp)
        omega
    · intro heq
      rcases hcase : oa_lookup m key with _ | w
      · have := hsz1 hcase
        omega
      · have := hsz2 (by rw [hcase]; simp)
        omega
  · -- load factor at least one half: automatic resize first
    rw [oa_put_succ_load_ge f m key value hload] at h
    rcases hres : oa_resize_core (oa_put f) m (m._capacity * 2) with _ | m1
    · rw [hres] at h; cases h
    rw [hres, Option.some_bind] at h
    have hsiz0 : 0 ≤ m._size := oa_inv_size_nonneg m hinv
    have hcap0 : 0 < m._capacity := by
      rw [oa_load_ge_half] at hload
      split at hload
      · assumption
      · split at hload
        · simp only [Option.some_inj, decide_eq_true_eq] at hload
          omega
        · cases hload
    have hge : m._capacity ≤ 2 * m._size := by
      rw [oa_load_ge_half, if_pos hcap0] at hload
      simp only [Option.some_inj, decide_eq_true_eq] at hload
      exact hload
    have hsle : m._size ≤ m._capacity := by
      have := oa_inv_size_le_cap m hinv
      omega
    have hcap2 : 2 ≤ m._capacity := by
      have := hinv.2.2.2.1
      omega
    have hprime2c : _is_prime (m._capacity * 2) = false :=
      _is_prime_even_ne_two _ (by omega) (by omega)
    have hnorm : (if _is_prime (m._capacity * 2) then m._capacity * 2
        else _next_prime (m._capacity * 2)) = _next_prime (m._capacity * 2) := by
      rw [hprime2c]
      rfl
    have hnp := (_next_prime_spec (m._capacity * 2)).2.2.2 (by omega)
    obtain ⟨hinv1, hcap1, hh1, hsz1, hlt1, hlook1, _⟩ :=
      oa_resize_strict f m m1 (m._capacity * 2) hinv (by omega)
        (by rw [hnorm]; omega) hres
    obtain ⟨hinv', hcap', hh', _, hlook', hsza, hszb⟩ :=
      oa_put_body_spec m1 m' key value hinv1 h
    have hlt1' : 2 * m1._size < m1._capacity := hlt1
    refine ⟨hinv', by rw [hh', hh1], ?_, ?_, ?_, ?_, ?_⟩
    · intro k'
      rw [hlook' k', hlook1 k']
    · intro hnone
      rw [hsza (by rw [hlook1]; exact hnone), hsz1]
    · intro hsome
      rw [hszb (by rw [hlook1]; exact hsome), hsz1]
    · rcases hcase : oa_lookup m1 key with _ | w
      · have := hsza hcase
        omega
      · have := hszb (by rw [hcase]; simp)
        omega
    · intro heq
      rcases hcase : oa_lookup m1 key with _ | w
      · have h5 := hsza hcase
        rw [hsz1] at h5
        omega
      · have := hszb (by rw [hcase]; simp)
        omega

theorem oa_put_list_main {K V : Type} [DecidableEq K] (fuel : Nat) :
    ∀ (L : List (K × V)) (m0 mr : HashMapOA K V),
      oa_inv m0 → (L.map Prod.fst).Nodup →
      (∀ p ∈ L, oa_lookup m0 p.1 = none) →
      oa_put_list (oa_put fuel) m0 L = some mr →
      oa_inv mr ∧ mr._hash_function = m0._hash_function ∧
        mr._size = m0._size + L.length ∧
        ∀ k : K, oa_lookup mr k =
          ((L.find? fun p => p.1 == k).map Prod.snd).or (oa_lookup m0 k) := by
  intro L
  induction L with
  | nil =>
    intro m0 mr hinv _ _ hput
    rw [oa_put_list_nil] at hput
    injection hput with hput
    subst hput
    exact ⟨hinv, rfl, by simp, fun k => by simp⟩
  | cons p L ih =>
    intro m0 mr hinv hnodup habsent hput
    rw [oa_put_list_cons] at hput
    rcases hstep : oa_put fuel m0 p.1 p.2 with _ | m1
    · rw [hstep] at hput; cases hput
    rw [hstep, Option.some_bind] at hput
    obtain ⟨hinv1, hh1, hlook1, hsz1, _, _, _⟩ :=
      oa_put_main fuel m0 m1 p.1 p.2 hinv hstep
    have habs0 : oa_lookup m0 p.1 = none := habsent p (List.mem_cons_self p L)
    have hsz1' : m1._size = m0._size + 1 := hsz1 habs0
    rw [List.map_cons, List.nodup_cons] at hnodup
    have habsent1 : ∀ q ∈ L, oa_lookup m1 q.1 = none := by
      intro q hq
      rw [hlook1 q.1, if_neg (show ¬ q.1 = p.1 from fun hqe =>
        hnodup.1 (hqe ▸ List.mem_map_of_mem Prod.fst hq))]
      exact habsent q (List.mem_cons_of_mem p hq)
    obtain ⟨hinvr, hhr, hszr, hlookr⟩ := ih m1 mr hinv1 hnodup.2 habsent1 hput
    refine ⟨hinvr, by rw [hhr, hh1], ?_, ?_⟩
    · rw [hszr, hsz1']
      simp only [List.length_cons]
      push_cast
      ring
    · intro k
      rw [hlookr k, hlook1 k]
      by_cases hk : k = p.1
      · have hfnone : L.find? (fun q => q.1 == k) = none := by
          refine List.find?_eq_none.mpr ?_
          intro q hq
          simp only [beq_iff_eq]
          intro hqe
          exact hnodup.1 ((hqe.trans hk) ▸ List.mem_map_of_mem Prod.fst hq)
        rw [if_pos hk, hfnone, List.find?_cons_of_pos _ (by simp [hk])]
        simp
      · rw [if_neg hk]
        rw [List.find?_cons_of_neg _ (by simpa using fun hh => hk hh.symm)]

theorem oa_resize_general {K V : Type} [DecidableEq K] (fuel : Nat)
    (m mr : HashMapOA K V) (nc : Int) (hinv : oa_inv m)
    (h : oa_resize_core (oa_put fuel) m nc = some mr) :
    oa_inv mr ∧ mr._hash_function = m._hash_function ∧ mr._size = m._size ∧
      (∀ k : K, oa_lookup mr k = oa_lookup m k) ∧
      (oa_get_keys_and_values mr).Perm (oa_get_keys_and_values m) := by
  rw [oa_resize_core] at h
  split at h
  · injection h with h
    subst h
    exact ⟨hinv, rfl, rfl, fun k => rfl, List.Perm.refl _⟩
  · set nc' : Int := if _is_prime nc then nc else _next_prime nc with hnc'
    set mmid : HashMapOA K V := { m with _capacity := nc' } with hmmid
    have hinv1 : oa_inv (oa_clear mmid) := oa_clear_inv mmid (normalize_ne_one nc)
    have habs : ∀ p ∈ oa_get_keys_and_values m,
        oa_lookup (oa_clear mmid) p.1 = none := fun p _ => oa_lookup_clear mmid p.1
    obtain ⟨hinvr, hhr, hszr, hlookr⟩ :=
      oa_put_list_main fuel (oa_get_keys_and_values m) (oa_clear mmid) mr hinv1
        hinv.2.2.1 habs h
    have hlookeq : ∀ k : K, oa_lookup mr k = oa_lookup m k := by
      intro k
      rw [hlookr k, oa_lookup_clear, Option.or_none]
      rfl
    refine ⟨hinvr, hhr, ?_, hlookeq, ?_⟩
    · rw [hszr, hinv.2.1]
      show (0 : Int) + _ = _
      ring
    · exact perm_of_nodup_keys_lookup_eq _ _ hinvr.2.2.1 hinv.2.2.1 hlookeq

theorem oa_get_of_lookup_some {K V : Type} [DecidableEq K] (m : HashMapOA K V)
    (k : K) (v : V) (hinv : oa_inv m) (hl : oa_lookup m k = some v) :
    oa_get m k = some (some v) := by
  obtain ⟨n, e, hn, hts, hk, hv⟩ := (oa_kvs_mem m (k, v)).mp (oa_lookup_mem m k v hl)
  simp only at hk hv
  have hprobe : oa_get_bucket_index m k = some (n : Int) := by
    have := (oa_findable_iff m).mp hinv.2.2.2.2 n e hn hts
    rw [hk] at this
    exact this
  have hnn : ((n : Nat) : Int).toNat = n := by omega
  rw [oa_get]
  split
  · next heq => rw [hprobe] at heq; cases heq
  · next index heq =>
    rw [hprobe] at heq
    injection heq with heq
    subst heq
    split
    · next heq2 => rw [hnn, hn] at heq2; cases heq2
    · next e2 heq2 =>
      rw [hnn, hn] at heq2
      injection heq2 with heq2
      injection heq2 with heq2
      subst heq2
      rw [if_neg (by simp [hts]), hv]
    · next heq2 =>
      rw [hnn, hn] at heq2
      injection heq2 with heq2
      cases heq2

theorem oa_remove_spec {K V : Type} [DecidableEq K] (m m' : HashMapOA K V)
    (k : K) (hinv : oa_inv m) (h : oa_remove m k = some m') :
    oa_inv m' ∧ m'._capacity = m._capacity ∧ m'._hash_function = m._hash_function ∧
      (oa_lookup m k = none → m' = m) ∧
      (∀ v : V, oa_lookup m k = some v →
        m'._size = m._size - 1 ∧ oa_lookup m' k = none ∧
        (∀ k' : K, k' ≠ k → oa_lookup m' k' = oa_lookup m k') ∧
        oa_contains_key m' k = some false) := by
  obtain ⟨hlen, hsize, hnodup, hcapne, hfind⟩ := hinv
  rw [oa_remove] at h
  split at h
  · cases h
  rename_i index hprobe
  obtain ⟨u, hu, hstop0, hieq, hgos⟩ := (oa_get_bucket_index_spec m k index).mp hprobe
  have hcap : 0 < m._capacity := by
    rcases Int.lt_or_le 0 m._capacity with h' | h'
    · exact h'
    · have : m._capacity.toNat = 0 := by omega
      omega
  have hstop : oa_probe_stop m k index := by rw [hieq]; exact hstop0
  have hbound : 0 ≤ index ∧ index < m._capacity := by
    rw [hieq]; exact oa_probe_seq_nonneg _ _ hcap u
  have hnlt : index.toNat < m._buckets.length := by
    rw [hlen]; omega
  split at h
  · cases h
  · -- the probed slot holds an entry; its key must be `k`
    rename_i e hread
    have hgetelem : m._buckets[index.toNat] = some e := by
      have h2 := List.getElem?_eq_getElem hnlt
      rw [hread] at h2
      injection h2.symm
    have hekey : e.key = k := by
      rcases hstop with h0 | ⟨e2, h2, hk2⟩
      · rw [hread] at h0; cases h0
      · rw [hread] at h2
        injection h2 with h2
        injection h2 with h2
        rw [← h2] at hk2
        exact hk2
    rcases hts : e.is_tombstone with _ | _
    · -- live entry: tombstone it
      rw [hts] at h
      rw [if_neg (by simp)] at h
      have hm' : { m with
          _buckets := m._buckets.set index.toNat (some ⟨e.key, e.value, true⟩)
          _size := m._size - 1 } = m' := by
        injection h
      set M' : HashMapOA K V := { m with
          _buckets := m._buckets.set index.toNat (some ⟨e.key, e.value, true⟩)
          _size := m._size - 1 } with hM'
      set A : List (K × V) := (m._buckets.take index.toNat).filterMap oa_entry_kv
        with hA
      set B : List (K × V) :=
        (m._buckets.drop (index.toNat + 1)).filterMap oa_entry_kv with hB
      have hkvsm : oa_get_keys_and_values m = A ++ [(k, e.value)] ++ B := by
        rw [oa_get_keys_and_values, oa_kvs_split m._buckets index.toNat hnlt,
          hgetelem]
        rw [show oa_entry_kv (some e) = some (k, e.value) by
          rw [oa_entry_kv]
          simp [hts, hekey]]
        rfl
      have hkvs' : oa_get_keys_and_values M' = A ++ B := by
        rw [hM', oa_get_keys_and_values]
        show (m._buckets.set index.toNat
          (some ⟨e.key, e.value, true⟩)).filterMap oa_entry_kv = _
        rw [oa_kvs_set_split m._buckets index.toNat _ hnlt]
        rw [show oa_entry_kv (some (⟨e.key, e.value, true⟩ : HashEntry K V)) =
          none by rw [oa_entry_kv]; simp]
        simp
      have hlookupsome : oa_lookup m k = some e.value := by
        refine oa_lookup_eq_find m k e.value hnodup ?_
        rw [hkvsm]
        exact List.mem_append_left B
          (List.mem_append_right A (List.mem_singleton.mpr rfl))
      have hkeysAB : (oa_get_keys_and_values m).map Prod.fst =
          A.map Prod.fst ++ k :: B.map Prod.fst := by
        rw [hkvsm]; simp
      have hnotin : k ∉ A.map Prod.fst ++ B.map Prod.fst ∧
          (A.map Prod.fst ++ B.map Prod.fst).Nodup := by
        have := hnodup
        rw [hkeysAB, List.nodup_middle, List.nodup_cons] at this
        exact this
      have hAkey : ∀ p ∈ A, p.1 ≠ k := by
        intro p hp hpk
        exact hnotin.1 (List.mem_append_left _
          (hpk ▸ List.mem_map_of_mem Prod.fst hp))
      have hBkey : ∀ p ∈ B, p.1 ≠ k := by
        intro p hp hpk
        exact hnotin.1 (List.mem_append_right _
          (hpk ▸ List.mem_map_of_mem Prod.fst hp))
      have hreadM' : M'._buckets[index.toNat]? = some (some ⟨e.key, e.value, true⟩) := by
        rw [hM']
        exact List.getElem?_set_self hnlt
      have hreadM'ne : ∀ t : Nat, t ≠ index.toNat →
          M'._buckets[t]? = m._buckets[t]? := by
        intro t ht
        rw [hM']
        exact List.getElem?_set_ne (fun hh => ht hh.symm)
      have htrans : ∀ (k' : K) (i' : Int), oa_get_bucket_index m k' = some i' →
          oa_get_bucket_index M' k' = some i' := by
        intro k' i' hp
        refine oa_probe_some_transfer m M' k' i' rfl rfl ?_ ?_ hp
        · rintro j ⟨e1, hj, hne1⟩
          by_cases hjn : j.toNat = index.toNat
          · rw [hjn, hread] at hj
            injection hj with hj
            injection hj with hj
            refine ⟨⟨e.key, e.value, true⟩, ?_, ?_⟩
            · rw [hjn]; exact hreadM'
            · show e.key ≠ k'
              rw [hj]; exact hne1
          · exact ⟨e1, by rw [hreadM'ne _ hjn]; exact hj, hne1⟩
        · intro hs
          by_cases hin : i'.toNat = index.toNat
          · rcases hs with h0 | ⟨e2, h2, hk2⟩
            · rw [hin, hread] at h0; cases h0
            · rw [hin, hread] at h2
              injection h2 with h2
              injection h2 with h2
              refine Or.inr ⟨⟨e.key, e.value, true⟩, ?_, ?_⟩
              · rw [hin]; exact hreadM'
              · show e.key = k'
                rw [h2]; exact hk2
          · exact oa_probe_stop_of_read_eq m M' k' i' (hreadM'ne _ hin) hs
      have hfind' : oa_findable_b M' = true := by
        rw [oa_findable_iff]
        intro n0 e0 hn0 hts0
        by_cases hn0i : n0 = index.toNat
        · subst hn0i
          rw [hreadM'] at hn0
          injection hn0 with hn0
          injection hn0 with hn0
          rw [← hn0] at hts0
          cases hts0
        · have hn0m : m._buckets[n0]? = some (some e0) := by
            rw [← hreadM'ne _ hn0i]
            exact hn0
          exact htrans e0.key _ ((oa_findable_iff m).mp hfind n0 e0 hn0m hts0)
      have hnodup' : ((oa_get_keys_and_values M').map Prod.fst).Nodup := by
        rw [hkvs', List.map_append]
        exact hnotin.2
      have hlookM'k : oa_lookup M' k = none := by
        rw [oa_lookup_none_iff, hkvs']
        intro p hp
        rcases List.mem_append.mp hp with hp | hp
        · exact hAkey p hp
        · exact hBkey p hp
      have hlookM' : ∀ k' : K, k' ≠ k → oa_lookup M' k' = oa_lookup m k' := by
        intro k' hk'
        rw [oa_lookup, oa_lookup, hkvs', hkvsm]
        rw [List.find?_append]
        rw [List.append_assoc, List.find?_append,
          show ([(k, e.value)] ++ B) = (k, e.value) :: B from rfl,
          List.find?_cons_of_neg _ (by simpa using fun hh => hk' hh.symm)]
      have hcontains : oa_contains_key M' k = some false := by
        rw [oa_contains_key]
        split
        · rfl
        · have hpM' : oa_get_bucket_index M' k = some index := by
            refine oa_probe_some_transfer m M' k index rfl rfl ?_ ?_ hprobe
            · rintro j ⟨e1, hj, hne1⟩
              by_cases hjn : j.toNat = index.toNat
              · rw [hjn, hread] at hj
                injection hj with hj
                injection hj with hj
                rw [← hj] at hne1
                exact absurd hekey hne1
              · exact ⟨e1, by rw [hreadM'ne _ hjn]; exact hj, hne1⟩
            · intro _
              exact Or.inr ⟨⟨e.key, e.value, true⟩, hreadM', hekey⟩
          split
          · next heq => rw [hpM'] at heq; cases heq
          · next index2 heq =>
            rw [hpM'] at heq
            injection heq with heq
            subst heq
            split
            · next heq2 => rw [hreadM'] at heq2; cases heq2
            · next e2 heq2 =>
              rw [hreadM'] at heq2
              injection heq2 with heq2
              injection heq2 with heq2
              rw [← heq2]
              rfl
            · rfl
      have hsz' : M'._size = m._size - 1 := rfl
      have hsizeM' : M'._size = ((oa_get_keys_and_values M').length : Int) := by
        rw [hsz', hkvs']
        rw [hkvsm] at hsize
        simp only [List.length_append, List.length_cons, List.length_nil] at hsize ⊢
        omega
      have hinvM' : oa_inv M' := by
        refine ⟨?_, hsizeM', hnodup', hcapne, hfind'⟩
        rw [hM']
        simpa using hlen
      subst hm'
      refine ⟨hinvM', rfl, rfl, ?_, ?_⟩
      · intro hn
        rw [hn] at hlookupsome
        cases hlookupsome
      · intro v hv
        exact ⟨rfl, hlookM'k, hlookM', hcontains⟩
    · -- tombstoned entry: Python takes the no-op branch
      rw [hts] at h
      have hm' : m = m' := by injection h
      subst hm'
      have hlooknone : oa_lookup m k = none := by
        refine (oa_lookup_none_iff m k).mpr ?_
        refine oa_probe_dead_none m k index hfind hprobe ?_
        intro e0 h0
        rw [hread] at h0
        injection h0 with h0
        injection h0 with h0
        rw [← h0]
        exact hts
      refine ⟨⟨hlen, hsize, hnodup, hcapne, hfind⟩, rfl, rfl, fun _ => rfl, ?_⟩
      intro v hv
      rw [hlooknone] at hv
      cases hv
  · -- empty slot: no-op
    rename_i hread
    have hm' : m = m' := by injection h
    subst hm'
    have hlooknone : oa_lookup m k = none := by
      refine (oa_lookup_none_iff m k).mpr ?_
      refine oa_probe_dead_none m k index hfind hprobe ?_
      intro e0 h0
      rw [hread] at h0
      injection h0 with h0
      cases h0
    refine ⟨⟨hlen, hsize, hnodup, hcapne, hfind⟩, rfl, rfl, fun _ => rfl, ?_⟩
    intro v hv
    rw [hlooknone] at hv
    cases hv

theorem oa_reachable_inv {K V : Type} [DecidableEq K] (m : HashMapOA K V)
    (h : oa_reachable m) : oa_inv m := by
  induction h with
  | init c f => exact oa_init_inv c f
  | put m m2 fuel k v hr heq ih => exact (oa_put_main fuel m m2 k v ih heq).1
  | remove m m2 k hr heq ih => exact (oa_remove_spec m m2 k ih heq).1
  | clear m hr ih => exact oa_clear_inv m ih.2.2.2.1
  | resize m m2 fuel nc hr heq ih => exact (oa_resize_general fuel m m2 nc ih heq).1

theorem oa_table_load_lt_half_iff {K V : Type} [DecidableEq K] (m : HashMapOA K V)
    (hcap : 0 < m._capacity) : (oa_table_load m < 1 / 2 ↔ 2 * m._size < m._capacity) := by
  rw [oa_table_load, div_lt_div_iff₀ (by exact_mod_cast hcap) (by norm_num)]
  constructor
  · intro h
    have h2 : ((m._size * 2 : Int) : ℚ) < ((m._capacity : Int) : ℚ) := by
      push_cast
      linarith
    have h3 : m._size * 2 < m._capacity := by exact_mod_cast h2
    omega
  · intro h
    have h2 : ((m._size * 2 : Int) : ℚ) < ((m._capacity : Int) : ℚ) := by
      exact_mod_cast (by omega : m._size * 2 < m._capacity)
    push_cast at h2 ⊢
    linarith


theorem find?_key_append_none {K V : Type} [DecidableEq K] (A : List (K × V))
    (k : K) (hA : ∀ p ∈ A, p.1 ≠ k) :
    A.find? (fun p => p.1 == k) = none :=
  List.find?_eq_none.mpr (fun p hp => by simpa using hA p hp)

theorem lookup_middle {K V : Type} [DecidableEq K] (AA BB : List (K × V))
    (k : K) (v : V) (hA : ∀ p ∈ AA, p.1 ≠ k) (k' : K) :
    ((AA ++ (k, v) :: BB).find? fun p => p.1 == k').map Prod.snd =
      if k' = k then some v
      else ((AA ++ BB).find? fun p => p.1 == k').map Prod.snd := by
  by_cases hk : k' = k
  · subst hk
    rw [if_pos rfl, List.find?_append, find?_key_append_none AA k' hA,
      Option.none_or, List.find?_cons_of_pos _ (by simp)]
    rfl
  · rw [if_neg hk, List.find?_append, List.find?_append,
      List.find?_cons_of_neg _ (by simpa using fun hh => hk hh.symm)]

theorem nodup_middle_parts {K V : Type} [DecidableEq K] (AA BB : List (K × V))
    (k : K) (v : V)
    (h : ((AA ++ (k, v) :: BB).map Prod.fst).Nodup) :
    k ∉ (AA ++ BB).map Prod.fst ∧ ((AA ++ BB).map Prod.fst).Nodup := by
  rw [List.map_append, List.map_cons, List.nodup_middle, List.nodup_cons,
    ← List.map_append] at h
  exact h

theorem nodup_middle_intro {K V : Type} [DecidableEq K] (AA BB : List (K × V))
    (k : K) (v : V)
    (hnotin : k ∉ (AA ++ BB).map Prod.fst)
    (hnd : ((AA ++ BB).map Prod.fst).Nodup) :
    ((AA ++ (k, v) :: BB).map Prod.fst).Nodup := by
  rw [List.map_append, List.map_cons, List.nodup_middle, List.nodup_cons,
    ← List.map_append]
  exact ⟨hnotin, hnd⟩

theorem keys_ne_of_notin {K V : Type} [DecidableEq K] (A : List (K × V)) (k : K)
    (h : k ∉ A.map Prod.fst) : ∀ p ∈ A, p.1 ≠ k := by
  intro p hp hpk
  exact h (hpk ▸ List.mem_map_of_mem Prod.fst hp)

theorem ll_decomp {K V : Type} [DecidableEq K] (b : List (SCNode K V)) (k : K)
    (nd : SCNode K V) (h : ll_contains b k = some nd) :
    ∃ b1 b2, b = b1 ++ nd :: b2 ∧ nd.key = k ∧ (∀ x ∈ b1, x.key ≠ k) ∧
      (∀ v : V, ll_update b k v = b1 ++ ⟨nd.key, v⟩ :: b2) ∧
      ll_remove b k = (true, b1 ++ b2) := by
  induction b with
  | nil => cases h
  | cons x rest ih =>
    by_cases hx : x.key = k
    · rw [ll_contains, List.find?_cons_of_pos _ (by simp [hx])] at h
      injection h with h
      subst h
      refine ⟨[], rest, rfl, hx, by simp, ?_, ?_⟩
      · intro v
        rw [ll_update, if_pos hx]
        rfl
      · rw [ll_remove, if_pos hx]
        rfl
    · rw [ll_contains, List.find?_cons_of_neg _ (by simpa using hx)] at h
      obtain ⟨b1, b2, hb, hk, hb1, hupd, hrem⟩ := ih h
      refine ⟨x :: b1, b2, by rw [hb]; rfl, hk, ?_, ?_, ?_⟩
      · intro y hy
        rcases List.mem_cons.mp hy with rfl | hy
        · exact hx
        · exact hb1 y hy
      · intro v
        rw [ll_update, if_neg hx, hupd v]
        rfl
      · rw [ll_remove, if_neg hx, hrem]
        rfl

theorem ll_remove_of_no_key {K V : Type} [DecidableEq K] (b : List (SCNode K V))
    (k : K) (h : ∀ x ∈ b, x.key ≠ k) : ll_remove b k = (false, b) := by
  induction b with
  | nil => rfl
  | cons x rest ih =>
    rw [ll_remove, if_neg (h x (List.mem_cons_self x rest)),
      ih (fun y hy => h y (List.mem_cons_of_mem x hy))]

theorem ll_update_of_no_key {K V : Type} [DecidableEq K] (b : List (SCNode K V))
    (k : K) (v : V) (h : ∀ x ∈ b, x.key ≠ k) : ll_update b k v = b := by
  induction b with
  | nil => rfl
  | cons x rest ih =>
    rw [ll_update, if_neg (h x (List.mem_cons_self x rest)),
      ih (fun y hy => h y (List.mem_cons_of_mem x hy))]

theorem ll_contains_none {K V : Type} [DecidableEq K] (b : List (SCNode K V))
    (k : K) (h : ll_contains b k = none) : ∀ x ∈ b, x.key ≠ k := by
  rw [ll_contains, List.find?_eq_none] at h
  intro x hx
  simpa using h x hx

theorem lt_of_getElem?_some {α : Type} (l : List α) (n : Nat) (a : α)
    (h : l[n]? = some a) : n < l.length := by
  by_contra h'
  rw [List.getElem?_eq_none (by omega)] at h
  cases h

theorem sc_kvs_split {K V : Type} (l : List (List (SCNode K V))) (n : Nat)
    (hn : n < l.length) :
    (l.map sc_bucket_kvs).flatten =
      ((l.take n).map sc_bucket_kvs).flatten ++ sc_bucket_kvs l[n] ++
        ((l.drop (n + 1)).map sc_bucket_kvs).flatten := by
  conv_lhs => rw [← List.take_append_drop n l]
  rw [List.map_append, List.flatten_append, List.drop_eq_getElem_cons hn,
    List.map_cons, List.flatten_cons, ← List.append_assoc]

theorem sc_kvs_set_split {K V : Type} (l : List (List (SCNode K V))) (n : Nat)
    (a : List (SCNode K V)) (hn : n < l.length) :
    ((l.set n a).map sc_bucket_kvs).flatten =
      ((l.take n).map sc_bucket_kvs).flatten ++ sc_bucket_kvs a ++
        ((l.drop (n + 1)).map sc_bucket_kvs).flatten := by
  rw [List.set_eq_take_cons_drop a hn, List.map_append, List.flatten_append,
    List.map_cons, List.flatten_cons, ← List.append_assoc]

theorem sc_get_of_read {K V : Type} [DecidableEq K] (m : HashMapSC K V) (k : K)
    (b : List (SCNode K V)) (h : m._buckets[sc_index m k]? = some b) :
    sc_get m k = some ((ll_contains b k).map SCNode.value) := by
  rw [sc_get, h]

theorem sc_contains_of_read {K V : Type} [DecidableEq K] (m : HashMapSC K V)
    (k : K) (b : List (SCNode K V)) (h : m._buckets[sc_index m k]? = some b) :
    sc_contains_key m k = some (ll_contains b k).isSome := by
  rw [sc_contains_key, h]

theorem ll_contains_update_self {K V : Type} [DecidableEq K]
    (b : List (SCNode K V)) (k : K) (v : V) (nd : SCNode K V)
    (h : ll_contains b k = some nd) :
    ll_contains (ll_update b k v) k = some ⟨nd.key, v⟩ := by
  obtain ⟨b1, b2, hb, hk, hb1, hupd, _⟩ := ll_decomp b k nd h
  rw [hupd v, ll_contains, List.find?_append,
    show (List.find? (fun nd => nd.key == k) b1) = none from
      List.find?_eq_none.mpr (fun x hx => by simpa using hb1 x hx),
    Option.none_or, List.find?_cons_of_pos _ (by simp [hk])]

theorem ll_contains_append_self {K V : Type} [DecidableEq K]
    (b : List (SCNode K V)) (k : K) (v : V) (h : ll_contains b k = none) :
    ll_contains (ll_append b k v) k = some ⟨k, v⟩ := by
  rw [ll_append, ll_contains, List.find?_append]
  rw [ll_contains] at h
  rw [h, Option.none_or, List.find?_cons_of_pos _ (by simp)]

theorem ll_contains_update_ne {K V : Type} [DecidableEq K]
    (b : List (SCNode K V)) (k k' : K) (v : V) (hk : k' ≠ k) :
    ll_contains (ll_update b k v) k' = ll_contains b k' := by
  induction b with
  | nil => rfl
  | cons x rest ih =>
    by_cases hx : x.key = k
    · rw [ll_update, if_pos hx, ll_contains, ll_contains,
        List.find?_cons_of_neg _ (by simp [hx]; exact fun hh => hk hh.symm),
        List.find?_cons_of_neg _ (by simp; intro hh; rw [hx] at hh; exact hk hh.symm)]
    · rw [ll_update, if_neg hx, ll_contains, ll_contains]
      by_cases hx' : x.key = k'
      · rw [List.find?_cons_of_pos _ (by simp [hx']),
          List.find?_cons_of_pos _ (by simp [hx'])]
      · rw [List.find?_cons_of_neg _ (by simpa using hx'),
          List.find?_cons_of_neg _ (by simpa using hx')]
        exact ih

theorem ll_contains_append_ne {K V : Type} [DecidableEq K]
    (b : List (SCNode K V)) (k k' : K) (v : V) (hk : k' ≠ k) :
    ll_contains (ll_append b k v) k' = ll_contains b k' := by
  rw [ll_append, ll_contains, ll_contains, List.find?_append]
  rw [show List.find? (fun nd => nd.key == k') [(⟨k, v⟩ : SCNode K V)] = none by
    rw [List.find?_cons_of_neg _ (by simp; exact fun hh => hk hh.symm)]
    rfl]
  rw [Option.or_none]

theorem sc_put_get_self {K V : Type} [DecidableEq K] (m m' : HashMapSC K V)
    (k : K) (v : V) (h : sc_put m k v = some m') :
    sc_get m' k = some (some v) := by
  rw [sc_put] at h
  split at h
  · cases h
  rename_i b hb
  have hn : sc_index m k < m._buckets.length := lt_of_getElem?_some _ _ _ hb
  split at h
  · rename_i nd hnd
    have hm' : { m with
        _buckets := m._buckets.set (sc_index m k) (ll_update b k v) } = m' := by
      injection h
    subst hm'
    rw [sc_get_of_read _ k (ll_update b k v) (List.getElem?_set_self hn)]
    rw [ll_contains_update_self b k v nd hnd]
    rfl
  · rename_i hnd
    have hm' : { m with
        _buckets := m._buckets.set (sc_index m k) (ll_append b k v)
        _size := m._size + 1 } = m' := by
      injection h
    subst hm'
    rw [sc_get_of_read _ k (ll_append b k v) (List.getElem?_set_self hn)]
    rw [ll_contains_append_self b k v hnd]
    rfl

theorem sc_put_get_other {K V : Type} [DecidableEq K] (m m' : HashMapSC K V)
    (k k' : K) (v : V) (hk : k' ≠ k) (h : sc_put m k v = some m') :
    sc_get m' k' = sc_get m k' := by
  rw [sc_put] at h
  split at h
  · cases h
  rename_i b hb
  have hn : sc_index m k < m._buckets.length := lt_of_getElem?_some _ _ _ hb
  have hidx : ∀ bb : List (SCNode K V), sc_index { m with
      _buckets := m._buckets.set (sc_index m k) bb } k' = sc_index m k' :=
    fun _ => rfl
  split at h
  · rename_i nd hnd
    have hm' : { m with
        _buckets := m._buckets.set (sc_index m k) (ll_update b k v) } = m' := by
      injection h
    subst hm'
    by_cases hsame : sc_index m k' = sc_index m k
    · rw [sc_get_of_read _ k' (ll_update b k v)
        (by rw [hidx, hsame]; exact List.getElem?_set_self hn)]
      rw [sc_get_of_read m k' b (by rw [hsame]; exact hb)]
      rw [ll_contains_update_ne b k k' v hk]
    · rw [sc_get, sc_get, hidx]
      rw [List.getElem?_set_ne (fun hh => hsame hh.symm)]
  · rename_i hnd
    have hm' : { m with
        _buckets := m._buckets.set (sc_index m k) (ll_append b k v)
        _size := m._size + 1 } = m' := by
      injection h
    subst hm'
    by_cases hsame : sc_index m k' = sc_index m k
    · rw [sc_get_of_read _ k' (ll_append b k v)
        (by show (m._buckets.set (sc_index m k) _)[sc_index m k']? = _
            rw [hsame]
            exact List.getElem?_set_self hn)]
      rw [sc_get_of_read m k' b (by rw [hsame]; exact hb)]
      rw [ll_contains_append_ne b k k' v hk]
    · rw [sc_get, sc_get]
      rw [show sc_index { m with
          _buckets := m._buckets.set (sc_index m k) (ll_append b k v)
          _size := m._size + 1 } k' = sc_index m k' from rfl]
      rw [List.getElem?_set_ne (fun hh => hsame hh.symm)]

theorem sc_bucketok_iff {K V : Type} [DecidableEq K] (m : HashMapSC K V) :
    sc_bucketok_b m = true ↔
      ∀ (j : Nat) (b : List (SCNode K V)), m._buckets[j]? = some b →
        ∀ nd ∈ b, sc_index m nd.key = j := by
  rw [sc_bucketok_b, List.all_eq_true]
  constructor
  · intro h j b hj nd hnd
    have hlt : j < m._buckets.length := lt_of_getElem?_some _ _ _ hj
    have := h j (List.mem_range.mpr hlt)
    rw [List.all_eq_true] at this
    rw [List.getD_eq_getElem?_getD, hj] at this
    have := this nd hnd
    simpa using this
  · intro h j hj
    rw [List.all_eq_true]
    intro nd hnd
    have hlt : j < m._buckets.length := List.mem_range.mp hj
    rw [List.getD_eq_getElem?_getD, List.getElem?_eq_getElem hlt] at hnd
    have := h j m._buckets[j] (List.getElem?_eq_getElem hlt) nd hnd
    simpa using this

theorem sc_flatten_mem_idx {K V : Type} (l : List (List (SCNode K V))) (p : K × V) :
    p ∈ (l.map sc_bucket_kvs).flatten ↔
      ∃ (j : Nat) (b : List (SCNode K V)), l[j]? = some b ∧
        ∃ nd ∈ b, nd.key = p.1 ∧ nd.value = p.2 := by
  rw [List.mem_flatten]
  constructor
  · rintro ⟨bl, hbl, hp⟩
    obtain ⟨b, hb, rfl⟩ := List.mem_map.mp hbl
    obtain ⟨j, hj⟩ := List.mem_iff_getElem?.mp hb
    obtain ⟨nd, hnd, hndp⟩ := List.mem_map.mp hp
    exact ⟨j, b, hj, nd, hnd, by rw [← hndp], by rw [← hndp]⟩
  · rintro ⟨j, b, hj, nd, hnd, hk, hv⟩
    refine ⟨sc_bucket_kvs b,
      List.mem_map_of_mem sc_bucket_kvs (List.mem_iff_getElem?.mpr ⟨j, hj⟩), ?_⟩
    rw [show p = (nd.key, nd.value) from by rw [hk, hv]]
    exact List.mem_map_of_mem _ hnd

theorem sc_split_at {K V : Type} [DecidableEq K] (m : HashMapSC K V) (k : K)
    (b : List (SCNode K V)) (hb : m._buckets[sc_index m k]? = some b)
    (hbok : sc_bucketok_b m = true) :
    sc_get_keys_and_values m =
      ((m._buckets.take (sc_index m k)).map sc_bucket_kvs).flatten ++
        sc_bucket_kvs b ++
        ((m._buckets.drop (sc_index m k + 1)).map sc_bucket_kvs).flatten ∧
      (∀ p ∈ ((m._buckets.take (sc_index m k)).map sc_bucket_kvs).flatten,
        p.1 ≠ k) ∧
      (∀ p ∈ ((m._buckets.drop (sc_index m k + 1)).map sc_bucket_kvs).flatten,
        p.1 ≠ k) := by
  have hn : sc_index m k < m._buckets.length := lt_of_getElem?_some _ _ _ hb
  have hget : m._buckets[sc_index m k] = b := by
    have h2 := List.getElem?_eq_getElem hn
    rw [hb] at h2
    injection h2.symm
  refine ⟨by rw [sc_get_keys_and_values, sc_kvs_split m._buckets _ hn, hget], ?_, ?_⟩
  · intro p hp hpk
    obtain ⟨j, b', hj, nd, hnd, hk, _⟩ := (sc_flatten_mem_idx _ p).mp hp
    rw [List.getElem?_take] at hj
    by_cases hjlt : j < sc_index m k
    · rw [if_pos hjlt] at hj
      have := (sc_bucketok_iff m).mp hbok j b' hj nd hnd
      rw [hk, hpk] at this
      omega
    · rw [if_neg hjlt] at hj
      cases hj
  · intro p hp hpk
    obtain ⟨j, b', hj, nd, hnd, hk, _⟩ := (sc_flatten_mem_idx _ p).mp hp
    rw [List.getElem?_drop] at hj
    have := (sc_bucketok_iff m).mp hbok _ b' hj nd hnd
    rw [hk, hpk] at this
    omega

theorem sc_bucket_kvs_keys_ne {K V : Type} [DecidableEq K]
    (b : List (SCNode K V)) (k : K) (h : ∀ x ∈ b, x.key ≠ k) :
    ∀ p ∈ sc_bucket_kvs b, p.1 ≠ k := by
  intro p hp
  obtain ⟨nd, hnd, hndp⟩ := List.mem_map.mp hp
  rw [← hndp]
  exact h nd hnd

theorem sc_put_spec {K V : Type} [DecidableEq K] (m m' : HashMapSC K V)
    (k : K) (v : V) (hinv : sc_inv m) (h : sc_put m k v = some m') :
    sc_inv m' ∧ m'._capacity = m._capacity ∧ m'._hash_function = m._hash_function ∧
      (∀ k' : K, sc_lookup m' k' = if k' = k then some v else sc_lookup m k') ∧
      (sc_lookup m k = none → m'._size = m._size + 1) ∧
      (sc_lookup m k ≠ none → m'._size = m._size) := by
  obtain ⟨hlen, hsize, hnodup, hbok⟩ := hinv
  rw [sc_put] at h
  split at h
  · cases h
  rename_i b hb
  have hn : sc_index m k < m._buckets.length := lt_of_getElem?_some _ _ _ hb
  obtain ⟨hkvsm, hFA, hFB⟩ := sc_split_at m k b hb hbok
  set FA : List (K × V) :=
    ((m._buckets.take (sc_index m k)).map sc_bucket_kvs).flatten with hFAdef
  set FB : List (K × V) :=
    ((m._buckets.drop (sc_index m k + 1)).map sc_bucket_kvs).flatten with hFBdef
  split at h
  · -- the chain already holds the key: in-place value update
    rename_i nd hnd
    obtain ⟨b1, b2, hbdec, hndk, hb1, hupd, _⟩ := ll_decomp b k nd hnd
    have hm' : { m with
        _buckets := m._buckets.set (sc_index m k) (ll_update b k v) } = m' := by
      injection h
    have hbk' : m'._buckets = m._buckets.set (sc_index m k) (ll_update b k v) := by
      rw [← hm']
    have hcap' : m'._capacity = m._capacity := by rw [← hm']
    have hhf' : m'._hash_function = m._hash_function := by rw [← hm']
    have hsz' : m'._size = m._size := by rw [← hm']
    have hbkv : sc_bucket_kvs b =
        sc_bucket_kvs b1 ++ (k, nd.value) :: sc_bucket_kvs b2 := by
      rw [hbdec, sc_bucket_kvs, List.map_append, List.map_cons, hndk]
      rfl
    have hbkv2 : sc_bucket_kvs (b1 ++ ⟨nd.key, v⟩ :: b2) =
        sc_bucket_kvs b1 ++ (k, v) :: sc_bucket_kvs b2 := by
      rw [sc_bucket_kvs, List.map_append, List.map_cons, hndk]
      rfl
    have hkvsm2 : sc_get_keys_and_values m =
        (FA ++ sc_bucket_kvs b1) ++ (k, nd.value) :: (sc_bucket_kvs b2 ++ FB) := by
      rw [hkvsm, hbkv]
      simp only [List.append_assoc, List.cons_append]
    have hkvs' : sc_get_keys_and_values m' =
        (FA ++ sc_bucket_kvs b1) ++ (k, v) :: (sc_bucket_kvs b2 ++ FB) := by
      rw [sc_get_keys_and_values, hbk', sc_kvs_set_split _ _ _ hn, hupd v, hbkv2]
      simp only [List.append_assoc, List.cons_append]
    have hAA : ∀ p ∈ FA ++ sc_bucket_kvs b1, p.1 ≠ k := by
      intro p hp
      rcases List.mem_append.mp hp with hp | hp
      · exact hFA p hp
      · exact sc_bucket_kvs_keys_ne b1 k hb1 p hp
    have hlookm : ∀ k' : K, sc_lookup m k' =
        if k' = k then some nd.value
        else (((FA ++ sc_bucket_kvs b1) ++ (sc_bucket_kvs b2 ++ FB)).find?
          fun p => p.1 == k').map Prod.snd := by
      intro k'
      rw [sc_lookup, hkvsm2]
      exact lookup_middle _ _ k nd.value hAA k'
    have hlookm' : ∀ k' : K, sc_lookup m' k' =
        if k' = k then some v
        else (((FA ++ sc_bucket_kvs b1) ++ (sc_bucket_kvs b2 ++ FB)).find?
          fun p => p.1 == k').map Prod.snd := by
      intro k'
      rw [sc_lookup, hkvs']
      exact lookup_middle _ _ k v hAA k'
    have hnodupm2 := hnodup
    rw [hkvsm2] at hnodupm2
    have hparts := nodup_middle_parts _ _ _ _ hnodupm2
    refine ⟨⟨?_, ?_, ?_, ?_⟩, hcap', hhf', ?_, ?_, ?_⟩
    · rw [hbk', hcap', List.length_set]
      exact hlen
    · rw [hkvs', hsz', hsize, hkvsm2]
      simp [List.length_append]
    · rw [hkvs']
      exact nodup_middle_intro _ _ _ _ hparts.1 hparts.2
    · rw [sc_bucketok_iff]
      intro j bj hj nd' hnd'
      have hidx : ∀ kk : K, sc_index m' kk = sc_index m kk := by
        intro kk
        simp only [sc_index, hhf', hcap']
      rw [hidx]
      rw [hbk'] at hj
      by_cases hji : j = sc_index m k
      · subst hji
        rw [List.getElem?_set_self hn] at hj
        injection hj with hj
        subst hj
        rw [hupd v] at hnd'
        rcases List.mem_append.mp hnd' with hx | hx
        · exact (sc_bucketok_iff m).mp hbok _ b hb nd'
            (by rw [hbdec]; exact List.mem_append_left _ hx)
        · rcases List.mem_cons.mp hx with rfl | hx
          · show sc_index m nd.key = sc_index m k
            rw [hndk]
          · exact (sc_bucketok_iff m).mp hbok _ b hb nd'
              (by rw [hbdec]
                  exact List.mem_append_right _ (List.mem_cons_of_mem _ hx))
      · rw [List.getElem?_set_ne (fun hh => hji hh.symm)] at hj
        exact (sc_bucketok_iff m).mp hbok j bj hj nd' hnd'
    · intro k'
      rw [hlookm' k', hlookm k']
      by_cases hk : k' = k
      · simp [hk]
      · simp [hk]
    · intro hnone
      rw [hlookm k, if_pos rfl] at hnone
      cases hnone
    · intro _
      exact hsz'
  · -- the key is new: append a node
    rename_i hnd
    have hbkeys := ll_contains_none b k hnd
    have hm' : { m with
        _buckets := m._buckets.set (sc_index m k) (ll_append b k v)
        _size := m._size + 1 } = m' := by
      injection h
    have hbk' : m'._buckets = m._buckets.set (sc_index m k) (ll_append b k v) := by
      rw [← hm']
    have hcap' : m'._capacity = m._capacity := by rw [← hm']
    have hhf' : m'._hash_function = m._hash_function := by rw [← hm']
    have hsz' : m'._size = m._size + 1 := by rw [← hm']
    have hAA : ∀ p ∈ FA ++ sc_bucket_kvs b, p.1 ≠ k := by
      intro p hp
      rcases List.mem_append.mp hp with hp | hp
      · exact hFA p hp
      · exact sc_bucket_kvs_keys_ne b k hbkeys p hp
    have hkvsm2 : sc_get_keys_and_values m = (FA ++ sc_bucket_kvs b) ++ FB := by
      rw [hkvsm]
    have hbkv2 : sc_bucket_kvs (ll_append b k v) =
        sc_bucket_kvs b ++ [(k, v)] := by
      rw [ll_append, sc_bucket_kvs, List.map_append]
      rfl
    have hkvs' : sc_get_keys_and_values m' =
        (FA ++ sc_bucket_kvs b) ++ (k, v) :: FB := by
      rw [sc_get_keys_and_values, hbk', sc_kvs_set_split _ _ _ hn, hbkv2]
      simp only [List.append_assoc, List.cons_append, List.nil_append,
        List.singleton_append]
    have hlooknone : sc_lookup m k = none := by
      rw [sc_lookup, hkvsm2]
      rw [find?_key_append_none _ k (by
        intro p hp
        rcases List.mem_append.mp hp with hp | hp
        · exact hAA p hp
        · exact hFB p hp)]
      rfl
    have hnodupm2 := hnodup
    rw [hkvsm2] at hnodupm2
    have hknotin : k ∉ ((FA ++ sc_bucket_kvs b) ++ FB).map Prod.fst := by
      intro hmem
      obtain ⟨p, hp, hpk⟩ := List.mem_map.mp hmem
      rcases List.mem_append.mp hp with hp | hp
      · exact hAA p hp hpk
      · exact hFB p hp hpk
    refine ⟨⟨?_, ?_, ?_, ?_⟩, hcap', hhf', ?_, ?_, ?_⟩
    · rw [hbk', hcap', List.length_set]
      exact hlen
    · rw [hkvs', hsz', hsize, hkvsm2]
      simp [List.length_append]
      ring
    · rw [hkvs']
      exact nodup_middle_intro _ _ _ _ hknotin hnodupm2
    · rw [sc_bucketok_iff]
      intro j bj hj nd' hnd'
      have hidx : ∀ kk : K, sc_index m' kk = sc_index m kk := by
        intro kk
        simp only [sc_index, hhf', hcap']
      rw [hidx]
      rw [hbk'] at hj
      by_cases hji : j = sc_index m k
      · subst hji
        rw [List.getElem?_set_self hn] at hj
        injection hj with hj
        subst hj
        rw [ll_append] at hnd'
        rcases List.mem_append.mp hnd' with hx | hx
        · exact (sc_bucketok_iff m).mp hbok _ b hb nd' hx
        · rcases List.mem_cons.mp hx with rfl | hx
          · rfl
          · cases hx
      · rw [List.getElem?_set_ne (fun hh => hji hh.symm)] at hj
        exact (sc_bucketok_iff m).mp hbok j bj hj nd' hnd'
    · intro k'
      rw [sc_lookup, hkvs', lookup_middle _ _ k v hAA k']
      by_cases hk : k' = k
      · rw [if_pos hk, if_pos hk]
      · rw [if_neg hk, if_neg hk, sc_lookup, hkvsm2]
    · intro _
      exact hsz'
    · intro hsome
      exact absurd hlooknone hsome

theorem sc_remove_spec {K V : Type} [DecidableEq K] (m m' : HashMapSC K V)
    (k : K) (hinv : sc_inv m) (h : sc_remove m k = some m') :
    sc_inv m' ∧ m'._capacity = m._capacity ∧ m'._hash_function = m._hash_function ∧
      (sc_lookup m k = none → m' = m) ∧
      (∀ v : V, sc_lookup m k = some v →
        m'._size = m._size - 1 ∧ sc_lookup m' k = none ∧
        (∀ k' : K, k' ≠ k → sc_lookup m' k' = sc_lookup m k') ∧
        sc_contains_key m' k = some false) := by
  obtain ⟨hlen, hsize, hnodup, hbok⟩ := hinv
  rw [sc_remove] at h
  split at h
  · cases h
  rename_i b hb
  have hn : sc_index m k < m._buckets.length := lt_of_getElem?_some _ _ _ hb
  obtain ⟨hkvsm, hFA, hFB⟩ := sc_split_at m k b hb hbok
  set FA : List (K × V) :=
    ((m._buckets.take (sc_index m k)).map sc_bucket_kvs).flatten with hFAdef
  set FB : List (K × V) :=
    ((m._buckets.drop (sc_index m k + 1)).map sc_bucket_kvs).flatten with hFBdef
  rcases hc : ll_contains b k with _ | nd
  · -- key absent: remove is a no-op
    have hbkeys := ll_contains_none b k hc
    have hremf : ll_remove b k = (false, b) := ll_remove_of_no_key b k hbkeys
    split at h
    · rename_i hcond
      rw [hremf] at hcond
      cases hcond
    have hm' : m' = m := by
      injection h with h
      exact h.symm
    have hlooknone : sc_lookup m k = none := by
      rw [sc_lookup, hkvsm]
      rw [find?_key_append_none _ k (by
        intro p hp
        rcases List.mem_append.mp hp with hp | hp
        · rcases List.mem_append.mp hp with hp | hp
          · exact hFA p hp
          · exact sc_bucket_kvs_keys_ne b k hbkeys p hp
        · exact hFB p hp)]
      rfl
    refine ⟨by rw [hm']; exact ⟨hlen, hsize, hnodup, hbok⟩, by rw [hm'],
      by rw [hm'], fun _ => hm', ?_⟩
    intro v hv
    rw [hlooknone] at hv
    cases hv
  · -- key present: the node is removed from its chain
    obtain ⟨b1, b2, hbdec, hndk, hb1, _, hrem⟩ := ll_decomp b k nd hc
    split at h
    · rename_i hcond
      have hm' : { m with
          _buckets := m._buckets.set (sc_index m k) (ll_remove b k).2
          _size := m._size - 1 } = m' := by
        injection h
      have hbk' : m'._buckets = m._buckets.set (sc_index m k) (b1 ++ b2) := by
        rw [← hm', hrem]
      have hcap' : m'._capacity = m._capacity := by rw [← hm']
      have hhf' : m'._hash_function = m._hash_function := by rw [← hm']
      have hsz' : m'._size = m._size - 1 := by rw [← hm']
      have hbkv : sc_bucket_kvs b =
          sc_bucket_kvs b1 ++ (k, nd.value) :: sc_bucket_kvs b2 := by
        rw [hbdec, sc_bucket_kvs, List.map_append, List.map_cons, hndk]
        rfl
      have hkvsm2 : sc_get_keys_and_values m =
          (FA ++ sc_bucket_kvs b1) ++ (k, nd.value) :: (sc_bucket_kvs b2 ++ FB) := by
        rw [hkvsm, hbkv]
        simp only [List.append_assoc, List.cons_append]
      have hkvs' : sc_get_keys_and_values m' =
          (FA ++ sc_bucket_kvs b1) ++ (sc_bucket_kvs b2 ++ FB) := by
        rw [sc_get_keys_and_values, hbk', sc_kvs_set_split _ _ _ hn]
        rw [show sc_bucket_kvs (b1 ++ b2) =
            sc_bucket_kvs b1 ++ sc_bucket_kvs b2 by
          rw [sc_bucket_kvs, List.map_append]
          rfl]
        simp only [List.append_assoc]
      have hAA : ∀ p ∈ FA ++ sc_bucket_kvs b1, p.1 ≠ k := by
        intro p hp
        rcases List.mem_append.mp hp with hp | hp
        · exact hFA p hp
        · exact sc_bucket_kvs_keys_ne b1 k hb1 p hp
      have hnodupm2 := hnodup
      rw [hkvsm2] at hnodupm2
      have hparts := nodup_middle_parts _ _ _ _ hnodupm2
      have hallne : ∀ p ∈ (FA ++ sc_bucket_kvs b1) ++ (sc_bucket_kvs b2 ++ FB),
          p.1 ≠ k := keys_ne_of_notin _ k hparts.1
      have hlookmk : sc_lookup m k = some nd.value := by
        rw [sc_lookup, hkvsm2, lookup_middle _ _ k nd.value hAA k, if_pos rfl]
      have hlooknone' : sc_lookup m' k = none := by
        rw [sc_lookup, hkvs', find?_key_append_none _ k hallne]
        rfl
      have hb2 : ∀ x ∈ b2, x.key ≠ k := by
        intro x hx hxk
        refine hallne (x.key, x.value) ?_ hxk
        refine List.mem_append_right _ (List.mem_append_left _ ?_)
        exact List.mem_map_of_mem _ hx
      refine ⟨⟨?_, ?_, ?_, ?_⟩, hcap', hhf', ?_, ?_⟩
      · rw [hbk', hcap', List.length_set]
        exact hlen
      · rw [hkvs', hsz', hsize, hkvsm2]
        simp [List.length_append]
        ring
      · rw [hkvs']
        exact hparts.2
      · rw [sc_bucketok_iff]
        intro j bj hj nd' hnd'
        have hidx : ∀ kk : K, sc_index m' kk = sc_index m kk := by
          intro kk
          simp only [sc_index, hhf', hcap']
        rw [hidx]
        rw [hbk'] at hj
        by_cases hji : j = sc_index m k
        · subst hji
          rw [List.getElem?_set_self hn] at hj
          injection hj with hj
          subst hj
          refine (sc_bucketok_iff m).mp hbok _ b hb nd' ?_
          rw [hbdec]
          rcases List.mem_append.mp hnd' with hx | hx
          · exact List.mem_append_left _ hx
          · exact List.mem_append_right _ (List.mem_cons_of_mem _ hx)
        · rw [List.getElem?_set_ne (fun hh => hji hh.symm)] at hj
          exact (sc_bucketok_iff m).mp hbok j bj hj nd' hnd'
      · intro hnone
        rw [hlookmk] at hnone
        cases hnone
      · intro v _
        refine ⟨hsz', hlooknone', ?_, ?_⟩
        · intro k' hk'
          rw [sc_lookup, hkvs']
          rw [sc_lookup, hkvsm2, lookup_middle _ _ k nd.value hAA k', if_neg hk']
        · have hidx : sc_index m' k = sc_index m k := by
            simp only [sc_index, hhf', hcap']
          rw [sc_contains_of_read m' k (b1 ++ b2)
            (by rw [hidx, hbk']; exact List.getElem?_set_self hn)]
          rw [show ll_contains (b1 ++ b2) k = none by
            rw [ll_contains, List.find?_eq_none]
            intro x hx
            simp only [beq_iff_eq]
            rcases List.mem_append.mp hx with hx | hx
            · exact hb1 x hx
            · exact hb2 x hx]
          rfl
    · rename_i hcond
      rw [hrem] at hcond
      simp at hcond

theorem flatten_replicate_nil {α : Type} :
    ∀ n : Nat, (List.replicate n ([] : List α)).flatten = []
  | 0 => rfl
  | n + 1 => by
    rw [List.replicate_succ, List.flatten_cons, flatten_replicate_nil n]
    rfl

theorem sc_kvs_clear {K V : Type} (m : HashMapSC K V) :
    sc_get_keys_and_values (sc_clear m) = [] := by
  rw [sc_clear, sc_get_keys_and_values]
  show ((List.replicate m._capacity.toNat ([] : List (SCNode K V))).map
    sc_bucket_kvs).flatten = []
  rw [List.map_replicate]
  show (List.replicate m._capacity.toNat ([] : List (K × V))).flatten = []
  exact flatten_replicate_nil _

theorem sc_bucketok_replicate {K V : Type} [DecidableEq K] (m : HashMapSC K V)
    (h : m._buckets = List.replicate m._capacity.toNat []) :
    sc_bucketok_b m = true := by
  rw [sc_bucketok_iff]
  intro j b hj nd hnd
  rw [h, List.getElem?_replicate] at hj
  split at hj
  · injection hj with hj
    rw [← hj] at hnd
    cases hnd
  · cases hj

theorem sc_clear_inv {K V : Type} [DecidableEq K] (m : HashMapSC K V) :
    sc_inv (sc_clear m) := by
  refine ⟨by simp [sc_clear], ?_, ?_, ?_⟩
  · rw [sc_kvs_clear]
    rfl
  · rw [sc_kvs_clear]
    exact List.nodup_nil
  · exact sc_bucketok_replicate _ rfl

theorem sc_lookup_clear {K V : Type} [DecidableEq K] (m : HashMapSC K V) (k : K) :
    sc_lookup (sc_clear m) k = none := by
  rw [sc_lookup, sc_kvs_clear]
  rfl

theorem sc_kvs_init {K V : Type} (capacity : Int) (f : K → Nat) :
    sc_get_keys_and_values (sc_init K V capacity f) = [] := by
  rw [sc_init, sc_get_keys_and_values]
  show ((List.replicate (_next_prime capacity).toNat
    ([] : List (SCNode K V))).map sc_bucket_kvs).flatten = []
  rw [List.map_replicate]
  show (List.replicate (_next_prime capacity).toNat ([] : List (K × V))).flatten = []
  exact flatten_replicate_nil _

theorem sc_init_inv {K V : Type} [DecidableEq K] (capacity : Int) (f : K → Nat) :
    sc_inv (sc_init K V capacity f) := by
  refine ⟨by simp [sc_init], ?_, ?_, ?_⟩
  · rw [sc_kvs_init]
    rfl
  · rw [sc_kvs_init]
    exact List.nodup_nil
  · exact sc_bucketok_replicate _ rfl

theorem sc_put_list_nil {K V : Type} [DecidableEq K] (m : HashMapSC K V) :
    sc_put_list m [] = some m := rfl

theorem sc_put_list_none {K V : Type} [DecidableEq K] (l : List (K × V)) :
    l.foldl (fun acc p => acc.bind fun mm => sc_put mm p.1 p.2)
      (none : Option (HashMapSC K V)) = none := by
  induction l with
  | nil => rfl
  | cons p l ih => exact ih

theorem sc_put_list_cons {K V : Type} [DecidableEq K] (m : HashMapSC K V)
    (p : K × V) (l : List (K × V)) :
    sc_put_list m (p :: l) =
      (sc_put m p.1 p.2).bind fun m1 => sc_put_list m1 l := by
  rw [sc_put_list, List.foldl_cons]
  rcases h : sc_put m p.1 p.2 with _ | m1
  · show List.foldl _ ((some m).bind fun mm => sc_put mm p.1 p.2) l = _
    rw [Option.some_bind, h]
    exact sc_put_list_none l
  · show List.foldl _ ((some m).bind fun mm => sc_put mm p.1 p.2) l = _
    rw [Option.some_bind, h]
    rfl

theorem sc_put_list_main {K V : Type} [DecidableEq K] :
    ∀ (L : List (K × V)) (m0 mr : HashMapSC K V),
      sc_inv m0 → (L.map Prod.fst).Nodup →
      (∀ p ∈ L, sc_lookup m0 p.1 = none) →
      sc_put_list m0 L = some mr →
      sc_inv mr ∧ mr._capacity = m0._capacity ∧
        mr._hash_function = m0._hash_function ∧
        mr._size = m0._size + L.length ∧
        ∀ k : K, sc_lookup mr k =
          ((L.find? fun p => p.1 == k).map Prod.snd).or (sc_lookup m0 k) := by
  intro L
  induction L with
  | nil =>
    intro m0 mr hinv _ _ hput
    rw [sc_put_list_nil] at hput
    injection hput with hput
    subst hput
    exact ⟨hinv, rfl, rfl, by simp, fun k => by simp⟩
  | cons p L ih =>
    intro m0 mr hinv hnodup habsent hput
    rw [sc_put_list_cons] at hput
    rcases hstep : sc_put m0 p.1 p.2 with _ | m1
    · rw [hstep] at hput; cases hput
    rw [hstep, Option.some_bind] at hput
    obtain ⟨hinv1, hc1, hh1, hlook1, hsz1, _⟩ :=
      sc_put_spec m0 m1 p.1 p.2 hinv hstep
    have habs0 : sc_lookup m0 p.1 = none := habsent p (List.mem_cons_self p L)
    have hsz1' : m1._size = m0._size + 1 := hsz1 habs0
    rw [List.map_cons, List.nodup_cons] at hnodup
    have habsent1 : ∀ q ∈ L, sc_lookup m1 q.1 = none := by
      intro q hq
      rw [hlook1 q.1, if_neg (show ¬ q.1 = p.1 from fun hqe =>
        hnodup.1 (hqe ▸ List.mem_map_of_mem Prod.fst hq))]
      exact habsent q (List.mem_cons_of_mem p hq)
    obtain ⟨hinvr, hcr, hhr, hszr, hlookr⟩ := ih m1 mr hinv1 hnodup.2 habsent1 hput
    refine ⟨hinvr, by rw [hcr, hc1], by rw [hhr, hh1], ?_, ?_⟩
    · rw [hszr, hsz1']
      simp only [List.length_cons]
      push_cast
      ring
    · intro k
      rw [hlookr k, hlook1 k]
      by_cases hk : k = p.1
      · have hfnone : L.find? (fun q => q.1 == k) = none := by
          refine List.find?_eq_none.mpr ?_
          intro q hq
          simp only [beq_iff_eq]
          intro hqe
          exact hnodup.1 ((hqe.trans hk) ▸ List.mem_map_of_mem Prod.fst hq)
        rw [if_pos hk, hfnone, List.find?_cons_of_pos _ (by simp [hk])]
        simp
      · rw [if_neg hk]
        rw [List.find?_cons_of_neg _ (by simpa using fun hh => hk hh.symm)]

theorem sc_resize_spec {K V : Type} [DecidableEq K] (m mr : HashMapSC K V)
    (nc : Int) (hinv : sc_inv m) (h : sc_resize_table m nc = some mr) :
    sc_inv mr ∧ mr._hash_function = m._hash_function ∧ mr._size = m._size ∧
      (nc < 1 → mr = m) ∧
      (¬ nc < 1 →
        mr._capacity = (if _is_prime nc then nc else _next_prime nc)) ∧
      (∀ k : K, sc_lookup mr k = sc_lookup m k) ∧
      (sc_get_keys_and_values mr).Perm (sc_get_keys_and_values m) := by
  rw [sc_resize_table] at h
  split at h
  · rename_i hlt
    injection h with h
    subst h
    exact ⟨hinv, rfl, rfl, fun _ => rfl, fun hn => absurd hlt hn,
      fun k => rfl, List.Perm.refl _⟩
  · rename_i hlt
    set nc' : Int := if _is_prime nc then nc else _next_prime nc with hnc'
    set mmid : HashMapSC K V := { m with _capacity := nc' } with hmmid
    have hinv1 : sc_inv (sc_clear mmid) := sc_clear_inv mmid
    have habs : ∀ p ∈ sc_get_keys_and_values m,
        sc_lookup (sc_clear mmid) p.1 = none := fun p _ => sc_lookup_clear mmid p.1
    obtain ⟨hinvr, hcr, hhr, hszr, hlookr⟩ :=
      sc_put_list_main (sc_get_keys_and_values m) (sc_clear mmid) mr hinv1
        hinv.2.2.1 habs h
    have hlookeq : ∀ k : K, sc_lookup mr k = sc_lookup m k := by
      intro k
      rw [hlookr k, sc_lookup_clear, Option.or_none]
      rfl
    refine ⟨hinvr, hhr, ?_, fun hn => absurd hn hlt, fun _ => hcr, hlookeq, ?_⟩
    · rw [hszr, hinv.2.1]
      show (0 : Int) + _ = _
      ring
    · exact perm_of_nodup_keys_lookup_eq _ _ hinvr.2.2.1 hinv.2.2.1 hlookeq

theorem sc_reachable_inv {K V : Type} [DecidableEq K] (m : HashMapSC K V)
    (h : sc_reachable m) : sc_inv m := by
  induction h with
  | init c f => exact sc_init_inv c f
  | put m m2 k v hr heq ih => exact (sc_put_spec m m2 k v ih heq).1
  | remove m m2 k hr heq ih => exact (sc_remove_spec m m2 k ih heq).1
  | clear m hr ih => exact sc_clear_inv m
  | resize m m2 nc hr heq ih => exact (sc_resize_spec m m2 nc ih heq).1

theorem oa_put_list_keep {K V : Type} [DecidableEq K] (fuel : Nat) (k : K) :
    ∀ (L : List (K × V)) (m0 mr : HashMapOA K V),
      oa_inv m0 → (∀ p ∈ L, p.1 ≠ k) →
      oa_put_list (oa_put fuel) m0 L = some mr →
      oa_inv mr ∧ oa_lookup mr k = oa_lookup m0 k := by
  intro L
  induction L with
  | nil =>
    intro m0 mr hinv _ hput
    rw [oa_put_list_nil] at hput
    injection hput with hput
    subst hput
    exact ⟨hinv, rfl⟩
  | cons p L ih =>
    intro m0 mr hinv hne hput
    rw [oa_put_list_cons] at hput
    rcases hstep : oa_put fuel m0 p.1 p.2 with _ | m1
    · rw [hstep] at hput; cases hput
    rw [hstep, Option.some_bind] at hput
    obtain ⟨hinv1, _, hlook1, _⟩ := oa_put_main fuel m0 m1 p.1 p.2 hinv hstep
    obtain ⟨hinvr, hlookr⟩ := ih m1 mr hinv1
      (fun q hq => hne q (List.mem_cons_of_mem p hq)) hput
    refine ⟨hinvr, ?_⟩
    rw [hlookr, hlook1 k,
      if_neg (fun hh => hne p (List.mem_cons_self p L) hh.symm)]

theorem sc_put_list_keep {K V : Type} [DecidableEq K] (k : K) :
    ∀ (L : List (K × V)) (m0 mr : HashMapSC K V),
      sc_inv m0 → (∀ p ∈ L, p.1 ≠ k) →
      sc_put_list m0 L = some mr →
      sc_inv mr ∧ mr._capacity = m0._capacity ∧
        sc_lookup mr k = sc_lookup m0 k := by
  intro L
  induction L with
  | nil =>
    intro m0 mr hinv _ hput
    rw [sc_put_list_nil] at hput
    injection hput with hput
    subst hput
    exact ⟨hinv, rfl, rfl⟩
  | cons p L ih =>
    intro m0 mr hinv hne hput
    rw [sc_put_list_cons] at hput
    rcases hstep : sc_put m0 p.1 p.2 with _ | m1
    · rw [hstep] at hput; cases hput
    rw [hstep, Option.some_bind] at hput
    obtain ⟨hinv1, hc1, _, hlook1, _⟩ := sc_put_spec m0 m1 p.1 p.2 hinv hstep
    obtain ⟨hinvr, hcr, hlookr⟩ := ih m1 mr hinv1
      (fun q hq => hne q (List.mem_cons_of_mem p hq)) hput
    refine ⟨hinvr, by rw [hcr, hc1], ?_⟩
    rw [hlookr, hlook1 k,
      if_neg (fun hh => hne p (List.mem_cons_self p L) hh.symm)]

theorem sc_cap_pos_of_put {K V : Type} [DecidableEq K] (m m' : HashMapSC K V)
    (k : K) (v : V) (hinv : sc_inv m) (h : sc_put m k v = some m') :
    0 < m._capacity := by
  rw [sc_put] at h
  split at h
  · cases h
  rename_i b hb
  have hn : sc_index m k < m._buckets.length := lt_of_getElem?_some _ _ _ hb
  rw [hinv.1] at hn
  omega

theorem find?_bucket_kvs {K V : Type} [DecidableEq K] (b : List (SCNode K V))
    (k : K) : (sc_bucket_kvs b).find? (fun p => p.1 == k) =
      (ll_contains b k).map fun nd => (nd.key, nd.value) := by
  induction b with
  | nil => rfl
  | cons x rest ih =>
    by_cases hx : x.key = k
    · rw [show sc_bucket_kvs (x :: rest) =
          (x.key, x.value) :: sc_bucket_kvs rest from rfl,
        List.find?_cons_of_pos _ (by simpa using hx),
        ll_contains, List.find?_cons_of_pos _ (by simpa using hx)]
      rfl
    · rw [show sc_bucket_kvs (x :: rest) =
          (x.key, x.value) :: sc_bucket_kvs rest from rfl,
        List.find?_cons_of_neg _ (by simpa using hx),
        ll_contains, List.find?_cons_of_neg _ (by simpa using hx), ih,
        ll_contains]

theorem sc_get_eq_lookup {K V : Type} [DecidableEq K] (m : HashMapSC K V)
    (k : K) (hinv : sc_inv m) (hcap : 0 < m._capacity) :
    sc_get m k = some (sc_lookup m k) := by
  have hn : sc_index m k < m._buckets.length := by
    rw [hinv.1]
    have h1 : 0 ≤ (m._hash_function k : Int) % m._capacity :=
      Int.emod_nonneg _ (by omega)
    have h2 : (m._hash_function k : Int) % m._capacity < m._capacity :=
      Int.emod_lt_of_pos _ hcap
    rw [sc_index]
    omega
  have hb : m._buckets[sc_index m k]? = some (m._buckets[sc_index m k]) :=
    List.getElem?_eq_getElem hn
  set b : List (SCNode K V) := m._buckets[sc_index m k] with hbdef
  obtain ⟨hkvsm, hFA, hFB⟩ := sc_split_at m k b hb hinv.2.2.2
  set FA : List (K × V) :=
    ((m._buckets.take (sc_index m k)).map sc_bucket_kvs).flatten with hFAdef
  set FB : List (K × V) :=
    ((m._buckets.drop (sc_index m k + 1)).map sc_bucket_kvs).flatten with hFBdef
  have hFAnone : FA.find? (fun p => p.1 == k) = none :=
    find?_key_append_none FA k hFA
  have hFBnone : FB.find? (fun p => p.1 == k) = none :=
    find?_key_append_none FB k hFB
  rw [sc_get_of_read m k b hb, sc_lookup, hkvsm, List.find?_append,
    List.find?_append, hFAnone, find?_bucket_kvs, hFBnone]
  rcases hc : ll_contains b k with _ | nd
  · rfl
  · rfl

/-- C1: for both variants, after `put(k, v)` followed by any further puts of
other keys (each of which may trigger automatic resizing), `get(k)` returns
`v`. -/
theorem claim_C1 {K V : Type} [DecidableEq K] (fuel : Nat)
    (mo m1 m2 : HashMapOA K V) (ms n1 n2 : HashMapSC K V)
    (k : K) (v : V) (LO LS : List (K × V)) :
    (oa_reachable mo → oa_put fuel mo k v = some m1 →
      (∀ p ∈ LO, p.1 ≠ k) → oa_put_list (oa_put fuel) m1 LO = some m2 →
      oa_get m2 k = some (some v)) ∧
    (sc_reachable ms → sc_put ms k v = some n1 →
      (∀ p ∈ LS, p.1 ≠ k) → sc_put_list n1 LS = some n2 →
      sc_get n2 k = some (some v)) := by
  constructor
  · intro hr hput hne hlist
    have hinv := oa_reachable_inv mo hr
    obtain ⟨hinv1, _, hlook1, _⟩ := oa_put_main fuel mo m1 k v hinv hput
    obtain ⟨hinv2, hlook2⟩ := oa_put_list_keep fuel k LO m1 m2 hinv1 hne hlist
    refine oa_get_of_lookup_some m2 k v hinv2 ?_
    rw [hlook2, hlook1 k, if_pos rfl]
  · intro hr hput hne hlist
    have hinv := sc_reachable_inv ms hr
    have hcap : 0 < ms._capacity := sc_cap_pos_of_put ms n1 k v hinv hput
    obtain ⟨hinv1, hc1, _, hlook1, _⟩ := sc_put_spec ms n1 k v hinv hput
    obtain ⟨hinv2, hc2, hlook2⟩ := sc_put_list_keep k LS n1 n2 hinv1 hne hlist
    rw [sc_get_eq_lookup n2 k hinv2 (by rw [hc2, hc1]; exact hcap), hlook2,
      hlook1 k, if_pos rfl]

theorem claim_C1_witness :
    oa_put 5 c1mo 1 7 = some c1m1 ∧
    oa_put_list (oa_put 5) c1m1 [(2, 5)] = some c1m2 ∧
    oa_get c1m2 1 = some (some 7) ∧
    sc_put c1ms 1 7 = some c1n1 ∧
    sc_put_list c1n1 [(2, 5)] = some c1n2 ∧
    sc_get c1n2 1 = some (some 7) := by
  refine ⟨rfl, rfl, ?_, rfl, rfl, ?_⟩
  · exact (claim_C1 5 c1mo c1m1 c1m2 c1ms c1n1 c1n2 1 7 [(2, 5)] [(2, 5)]).1
      (.init 11 idhash) rfl (by decide) rfl
  · exact (claim_C1 5 c1mo c1m1 c1m2 c1ms c1n1 c1n2 1 7 [(2, 5)] [(2, 5)]).2
      (.init 11 idhash) rfl (by decide) rfl

/-- C2: for both variants, a successful `resize_table` from a reachable
state permutes (hence preserves as a multiset) the enumerated (key, value)
pairs: nothing is lost or duplicated. Automatic resizes run the same
function with `new_capacity = 2 * capacity`. -/
theorem claim_C2 {K V : Type} [DecidableEq K] (fuel : Nat)
    (m m' : HashMapOA K V) (ms ms' : HashMapSC K V) (nc ns : Int) :
    (oa_reachable m → oa_resize_table fuel m nc = some m' →
      (oa_get_keys_and_values m').Perm (oa_get_keys_and_values m)) ∧
    (sc_reachable ms → sc_resize_table ms ns = some ms' →
      (sc_get_keys_and_values ms').Perm (sc_get_keys_and_values ms)) := by
  constructor
  · intro hr h
    rw [oa_resize_table] at h
    exact (oa_resize_general fuel m m' nc (oa_reachable_inv m hr) h).2.2.2.2
  · intro hr h
    exact (sc_resize_spec ms ms' ns (sc_reachable_inv ms hr) h).2.2.2.2.2.2

theorem claim_C2_witness :
    oa_resize_table 5 c2m 23 = some c2mr ∧
    (oa_get_keys_and_values c2mr).Perm (oa_get_keys_and_values c2m) ∧
    sc_resize_table c2s 23 = some c2sr ∧
    (sc_get_keys_and_values c2sr).Perm (sc_get_keys_and_values c2s) := by
  refine ⟨rfl, ?_, rfl, ?_⟩
  · exact (claim_C2 5 c2m c2mr c2s c2sr 23 23).1
      (.put (oa_init Nat Nat 11 idhash) c2m 5 1 7 (.init 11 idhash) rfl) rfl
  · exact (claim_C2 5 c2m c2mr c2s c2sr 23 23).2
      (.put (sc_init Nat Nat 11 idhash) c2s 1 7 (.init 11 idhash) rfl) rfl

/-- C3: `get_bucket_index` returns `some i` exactly when some iteration `u`
of the quadratic probe sequence `(initial + u^2) % capacity` (with
`initial = hash(key) % capacity`) is the first to reach a slot that is
empty or holds an entry (live or tombstoned) with the target key, and `i`
is that slot's index; every earlier iteration saw an entry with a different
key. -/
theorem claim_C3 {K V : Type} [DecidableEq K] (m : HashMapOA K V) (key : K)
    (i : Int) :
    oa_get_bucket_index m key = some i ↔
      ∃ u : Nat, u < m._capacity.toNat ∧
        oa_probe_stop m key
          (oa_probe_seq m._capacity ((m._hash_function key : Int) % m._capacity) u) ∧
        i = oa_probe_seq m._capacity ((m._hash_function key : Int) % m._capacity) u ∧
        ∀ s : Nat, s < u →
          oa_probe_go m key
            (oa_probe_seq m._capacity ((m._hash_function key : Int) % m._capacity) s) :=
  oa_get_bucket_index_spec m key i

/-- C4 (corrected): immediately after every successful `put` from a
reachable open-addressing state, `2 * size <= capacity + 1` holds (load is
at most `1/2 + 1/(2*capacity)`), and `table_load() < 0.5` does hold
whenever the put was an update of an existing key; but a non-update put can
leave the load at or above 0.5 (see the counterexample). -/
theorem claim_C4 {K V : Type} [DecidableEq K] (fuel : Nat)
    (m m' : HashMapOA K V) (k : K) (v : V)
    (hr : oa_reachable m) (h : oa_put fuel m k v = some m') :
    2 * m'._size ≤ m'._capacity + 1 ∧
      (oa_lookup m k ≠ none → oa_table_load m' < 1 / 2) := by
  have hinv := oa_reachable_inv m hr
  obtain ⟨hinv', _, _, _, hupd, hb1, hb2⟩ := oa_put_main fuel m m' k v hinv h
  refine ⟨hb1, fun hne => ?_⟩
  have hlt := hb2 (hupd hne)
  have h0 : 0 ≤ m'._size := oa_inv_size_nonneg m' hinv'
  rw [oa_table_load_lt_half_iff m' (by omega)]
  exact hlt

theorem claim_C4_witness :
    oa_put 5 c4m1 1 1 = some c4m2 ∧ 2 * c4m2._size ≤ c4m2._capacity + 1 :=
  ⟨rfl, (claim_C4 5 c4m1 c4m2 1 1
    (.put c4m0 c4m1 5 0 0 (.init 3 idhash) rfl) rfl).1⟩

theorem claim_C4_counterexample :
    oa_reachable c4m1 ∧ oa_put 5 c4m1 1 1 = some c4m2 ∧
    oa_lookup c4m1 1 = none ∧ ¬ oa_table_load c4m2 < 1 / 2 := by
  refine ⟨.put c4m0 c4m1 5 0 0 (.init 3 idhash) rfl, rfl, by decide, ?_⟩
  rw [oa_table_load, show c4m2._size = 2 from rfl,
    show c4m2._capacity = 3 from rfl]
  norm_num

/-- C5: in every reachable state of either variant, the live keys are
pairwise distinct (each key occupies exactly one live slot / chain node)
and the `_size` field equals the number of live key/value pairs; in
particular `0 <= size`. -/
theorem claim_C5 {K V : Type} [DecidableEq K] (m : HashMapOA K V)
    (ms : HashMapSC K V) :
    (oa_reachable m → ((oa_get_keys_and_values m).map Prod.fst).Nodup ∧
      m._size = ((oa_get_keys_and_values m).length : Int) ∧ 0 ≤ m._size) ∧
    (sc_reachable ms → ((sc_get_keys_and_values ms).map Prod.fst).Nodup ∧
      ms._size = ((sc_get_keys_and_values ms).length : Int) ∧ 0 ≤ ms._size) := by
  constructor
  · intro hr
    have hinv := oa_reachable_inv m hr
    exact ⟨hinv.2.2.1, hinv.2.1, oa_inv_size_nonneg m hinv⟩
  · intro hr
    have hinv := sc_reachable_inv ms hr
    refine ⟨hinv.2.2.1, hinv.2.1, ?_⟩
    rw [hinv.2.1]
    positivity

theorem claim_C5_witness :
    ((oa_get_keys_and_values (oa_init Nat Nat 11 idhash)).map Prod.fst).Nodup ∧
    0 ≤ (sc_init Nat Nat 11 idhash)._size :=
  ⟨((claim_C5 (oa_init Nat Nat 11 idhash) (sc_init Nat Nat 11 idhash)).1
      (.init 11 idhash)).1,
   ((claim_C5 (oa_init Nat Nat 11 idhash) (sc_init Nat Nat 11 idhash)).2
      (.init 11 idhash)).2.2⟩

/-- C6: for every integer `n >= 1`, `_next_prime n` is a prime at least
`n` (odd, and past `n` itself when `n` is even), `_is_prime` decides
primality, and the quoted concrete values hold. -/
theorem claim_C6 (n : Int) (hn : 1 ≤ n) :
    Prime (_next_prime n) ∧ n ≤ _next_prime n ∧ _next_prime n % 2 = 1 ∧
      (n % 2 = 0 → n + 1 ≤ _next_prime n) ∧
      (_is_prime n = true ↔ Prime n) ∧
      _next_prime 4 = 5 ∧ _next_prime 11 = 11 ∧
      _is_prime 1 = false ∧ _is_prime 2 = true :=
  ⟨_next_prime_prime n hn, (_next_prime_spec n).2.1, (_next_prime_spec n).2.2.1,
    (_next_prime_spec n).2.2.2, _is_prime_iff_prime n hn,
    by decide, by decide, by decide, by decide⟩

theorem claim_C6_witness :
    (1 : Int) ≤ 4 ∧ Prime (_next_prime (4 : Int)) :=
  ⟨by decide, (claim_C6 4 (by decide)).1⟩

/-- C7: for both variants, in any reachable state, removing a present key
makes `contains_key` report false and decrements `_size` by exactly one,
while removing an absent key returns the state unchanged. -/
theorem claim_C7 {K V : Type} [DecidableEq K] (m m' : HashMapOA K V)
    (ms ms' : HashMapSC K V) (k : K) :
    (oa_reachable m → oa_remove m k = some m' →
      (∀ v : V, oa_lookup m k = some v →
        oa_contains_key m' k = some false ∧ m'._size = m._size - 1) ∧
      (oa_lookup m k = none → m' = m)) ∧
    (sc_reachable ms → sc_remove ms k = some ms' →
      (∀ v : V, sc_lookup ms k = some v →
        sc_contains_key ms' k = some false ∧ ms'._size = ms._size - 1) ∧
      (sc_lookup ms k = none → ms' = ms)) := by
  constructor
  · intro hr h
    obtain ⟨_, _, _, hnone, hsome⟩ :=
      oa_remove_spec m m' k (oa_reachable_inv m hr) h
    exact ⟨fun v hv => ⟨(hsome v hv).2.2.2, (hsome v hv).1⟩, hnone⟩
  · intro hr h
    obtain ⟨_, _, _, hnone, hsome⟩ :=
      sc_remove_spec ms ms' k (sc_reachable_inv ms hr) h
    exact ⟨fun v hv => ⟨(hsome v hv).2.2.2, (hsome v hv).1⟩, hnone⟩

theorem claim_C7_witness :
    oa_lookup c7m 1 = some 7 ∧ oa_remove c7m 1 = some c7mr ∧
    oa_contains_key c7mr 1 = some false ∧
    sc_lookup c7s 1 = some 7 ∧ sc_remove c7s 1 = some c7sr ∧
    sc_contains_key c7sr 1 = some false := by
  refine ⟨by decide, rfl, ?_, by decide, rfl, ?_⟩
  · exact (((claim_C7 c7m c7mr c7s c7sr 1).1
      (.put (oa_init Nat Nat 11 idhash) c7m 5 1 7 (.init 11 idhash) rfl)
      rfl).1 7 (by decide)).1
  · exact (((claim_C7 c7m c7mr c7s c7sr 1).2
      (.put (sc_init Nat Nat 11 idhash) c7s 1 7 (.init 11 idhash) rfl)
      rfl).1 7 (by decide)).1

/-- C8: `resize_table` is a silent no-op below the live-entry count (open
addressing) resp. below 1 (chaining); otherwise the requested capacity is
normalized (kept if `_is_prime`, else advanced by `_next_prime`) and the
rehash proceeds from a cleared table of that normalized capacity — for the
chaining variant, whose puts never resize, the final capacity equals it. -/
theorem claim_C8 {K V : Type} [DecidableEq K] (fuel : Nat)
    (m : HashMapOA K V) (ms ms' : HashMapSC K V) (nc na nb : Int) :
    (nc < m._size → oa_resize_table fuel m nc = some m) ∧
    (¬ nc < m._size → oa_resize_table fuel m nc =
      oa_put_list (oa_put fuel)
        (oa_clear { m with
          _capacity := if _is_prime nc then nc else _next_prime nc })
        (oa_get_keys_and_values m)) ∧
    (na < 1 → sc_resize_table ms na = some ms) ∧
    (sc_reachable ms → ¬ nb < 1 → sc_resize_table ms nb = some ms' →
      ms'._capacity = if _is_prime nb then nb else _next_prime nb) := by
  refine ⟨?_, ?_, ?_, ?_⟩
  · intro h
    rw [oa_resize_table, oa_resize_core, if_pos h]
  · intro h
    rw [oa_resize_table, oa_resize_core, if_neg h]
  · intro h
    rw [sc_resize_table, if_pos h]
  · intro hr hge h
    exact (sc_resize_spec ms ms' nb (sc_reachable_inv ms hr) h).2.2.2.2.1 hge

theorem claim_C8_witness :
    (0 : Int) < c8m._size ∧ oa_resize_table 5 c8m 0 = some c8m ∧
    sc_resize_table c8s 0 = some c8s ∧
    sc_resize_table c8s 23 = some c8sr ∧
    c8sr._capacity = if _is_prime 23 then 23 else _next_prime 23 := by
  refine ⟨by decide, ?_, ?_, rfl, ?_⟩
  · exact (claim_C8 5 c8m c8s c8sr 0 0 23).1 (by decide)
  · exact (claim_C8 5 c8m c8s c8sr 0 0 23).2.2.1 (by decide)
  · exact (claim_C8 5 c8m c8s c8sr 0 0 23).2.2.2
      (.put (sc_init Nat Nat 11 idhash) c8s 1 7 (.init 11 idhash) rfl)
      (by decide) rfl

/-- C9: an accepted `resize_table` request equal to the current size makes
the nested automatic doubling fire during reinsertion: from a reachable
4-entry map, `resize_table(4)` succeeds yet ends with capacity 11, strictly
above `_next_prime 4 = 5`. -/
theorem claim_C9 : ∃ (m mr : HashMapOA Nat Nat) (fuel : Nat),
    oa_reachable m ∧ m._size = 4 ∧ ¬ (4 : Int) < m._size ∧
    oa_resize_table fuel m 4 = some mr ∧
    _next_prime 4 = 5 ∧ 5 < mr._capacity := by
  refine ⟨c9m4, c9mr, 5, ?_, rfl, by decide, rfl, by decide, ?_⟩
  · exact .put c9m3 c9m4 5 3 3 (.put c9m2 c9m3 5 2 2 (.put c9m1 c9m2 5 1 1
      (.put c9m0 c9m1 5 0 0 (.init 11 idhash) rfl) rfl) rfl) rfl
  · rw [show c9mr._capacity = 11 from rfl]
    decide

/-- C10: `_is_prime` accepts every negative odd integer (the trial-division
loop never runs), `_next_prime` returns such an input unchanged, and the
constructor then builds a map with that negative capacity and an empty
bucket array. -/
theorem claim_C10 {K V : Type} [DecidableEq K] (n : Int) (f : K → Nat)
    (hneg : n < 0) (hodd : n % 2 = 1) :
    _is_prime n = true ∧ _next_prime n = n ∧
    (oa_init K V n f)._capacity = n ∧ (oa_init K V n f)._buckets = [] := by
  have h1 := _is_prime_neg_odd n hneg hodd
  have h2 : _next_prime n = n := _next_prime_of_code_prime n hodd h1
  refine ⟨h1, h2, h2, ?_⟩
  show List.replicate (_next_prime n).toNat (none : Option (HashEntry K V)) = []
  rw [h2, show n.toNat = 0 by omega]
  rfl

theorem claim_C10_witness :
    _is_prime (-3 : Int) = true ∧ (oa_init Nat Nat (-3) idhash)._buckets = [] := by
  have h := claim_C10 (K := Nat) (V := Nat) (-3) idhash (by decide) (by decide)
  exact ⟨h.1, h.2.2.2⟩
